import Mathlib

/-!
Shallow embedding of the AwajunTextExtractor corpus pipeline
(`src/pdf_extractor.py`, class `CorpusGenerator`, plus the file-ordering
logic of `generar_corpus_monolingue`).

Strings are modelled as `List Char`.  Python regular-expression
substitutions are modelled by left-to-right scanners (`scanGo`/`scanSub`)
driven by per-pattern matching functions, mirroring `re.sub` semantics:
scan left to right, at each position attempt the (greedy, backtracking)
match; on success emit the replacement and resume after the match,
otherwise emit the character and advance by one.

Modelling notes, checked against every call site:
* `$` is modelled as end-of-string.  Python's `$` also matches before a
  final newline, but every pattern using `$` here is applied either to a
  string that was previously `strip`ped or to a single line produced by
  `split('\n')`, or ends in `\s*` (which absorbs a final newline), so the
  two semantics agree at all call sites.
* Whitespace (`\s`, `str.strip`) is modelled by the six ASCII whitespace
  characters; Unicode-only whitespace is not modelled.
* `\d` is modelled by ASCII digits, and `str.lower` by ASCII letters plus
  the accented uppercase letters that can occur with the vocabulary list.
-/

namespace Awajun

/-- ASCII whitespace stripped by Python `str.strip` and matched by `\s`. -/
def pyIsSpace (c : Char) : Bool :=
  c = ' ' || c = '\t' || c = '\n' || c = '\r' || c = '\x0b' || c = '\x0c'

/-- Python `str.strip()`. -/
def pyStrip (l : List Char) : List Char :=
  (l.dropWhile pyIsSpace).rdropWhile pyIsSpace

/-- The backquote character, used by the inline-code markdown pattern. -/
def backquoteChar : Char := Char.ofNat 96

/-- Python `str.lower()` restricted to ASCII letters and the accented
uppercase letters relevant to the administrative vocabulary list. -/
def pyLower (c : Char) : Char :=
  if 'A' ≤ c ∧ c ≤ 'Z' then Char.ofNat (c.toNat + 32)
  else if c = 'Á' then 'á' else if c = 'É' then 'é' else if c = 'Í' then 'í'
  else if c = 'Ó' then 'ó' else if c = 'Ú' then 'ú' else if c = 'Ñ' then 'ñ'
  else if c = 'Ü' then 'ü' else c

/-- Python `str.split(sep)` for a single-character separator. -/
def pySplit (sep : Char) : List Char → List (List Char)
  | [] => [[]]
  | c :: cs =>
    if c = sep then [] :: pySplit sep cs
    else (pySplit sep cs).modifyHead (c :: ·)

/-- `concatMap`, kept as a local definition so that all list plumbing of the
embedding is structural and kernel-evaluable. -/
def concatMapL (f : α → List β) : List α → List β
  | [] => []
  | x :: xs => f x ++ concatMapL f xs

/-- Generic left-to-right `re.sub` scanner.  `step s` attempts a match at the
start of `s`, returning the replacement text and the remainder after the
matched span.  The fuel argument makes the recursion structural; it is
instantiated with the length of the string, which suffices because every
match consumes at least one character. -/
def scanGo (step : List Char → Option (List Char × List Char)) :
    Nat → List Char → List Char
  | 0, s => s
  | _ + 1, [] => []
  | fuel + 1, c :: cs =>
    match step (c :: cs) with
    | some (out, rest) => out ++ scanGo step fuel rest
    | none => c :: scanGo step fuel cs

/-- One global `re.sub` pass with matcher `step`. -/
def scanSub (step : List Char → Option (List Char × List Char))
    (s : List Char) : List Char :=
  scanGo step s.length s

/-- `step` consumes at least one character whenever it matches. -/
def Shrinks (step : List Char → Option (List Char × List Char)) : Prop :=
  ∀ s out rest, step s = some (out, rest) → rest.length < s.length

/-- Does the first character of `l` (if any) satisfy `p`? -/
def headSat (p : Char → Bool) (l : List Char) : Bool := (l.take 1).any p

/-- Matcher for `re.sub(r'#{1,6}\s+', '', ·)`: a run of at most six `#`
followed by at least one whitespace character (a run of more than six `#`
cannot match, because after backtracking the next character is still `#`;
the whole whitespace run after the hash run is consumed greedily). -/
def stepHeader : List Char → Option (List Char × List Char)
  | [] => none
  | c :: cs =>
    if c = '#' then
      let n := 1 + (cs.takeWhile (· = '#')).length
      let rest := cs.dropWhile (· = '#')
      if n ≤ 6 ∧ headSat pyIsSpace rest then some ([], rest.dropWhile pyIsSpace)
      else none
    else none

/-- Matcher for `re.sub(r'\*\*([^*]+)\*\*', r'\1', ·)`: two stars, a
nonempty maximal run of non-star characters, then two stars. -/
def stepBold : List Char → Option (List Char × List Char)
  | c1 :: c2 :: ds =>
    if c1 = '*' ∧ c2 = '*' then
      let inner := ds.takeWhile (· ≠ '*')
      let rest := ds.dropWhile (· ≠ '*')
      if inner.isEmpty then none
      else if rest.take 2 = ['*', '*'] then some (inner, rest.drop 2)
      else none
    else none
  | _ => none

/-- Matcher for `re.sub(r'\*([^*]+)\*', r'\1', ·)`. -/
def stepItalic : List Char → Option (List Char × List Char)
  | [] => none
  | c :: ds =>
    if c = '*' then
      let inner := ds.takeWhile (· ≠ '*')
      let rest := ds.dropWhile (· ≠ '*')
      if inner.isEmpty then none
      else if rest.take 1 = ['*'] then some (inner, rest.drop 1)
      else none
    else none

/-- Matcher for the inline-code pattern (backquote-delimited). -/
def stepCode : List Char → Option (List Char × List Char)
  | [] => none
  | c :: ds =>
    if c = backquoteChar then
      let inner := ds.takeWhile (· ≠ backquoteChar)
      let rest := ds.dropWhile (· ≠ backquoteChar)
      if inner.isEmpty then none
      else if rest.take 1 = [backquoteChar] then some (inner, rest.drop 1)
      else none
    else none

/-- Matcher for `re.sub(r'\[([^\]]+)\]\([^)]+\)', r'\1', ·)`: a bracketed
nonempty label followed by a parenthesised nonempty target; the label is
kept. -/
def stepLink : List Char → Option (List Char × List Char)
  | [] => none
  | c :: ds =>
    if c = '[' then
      let lab := ds.takeWhile (· ≠ ']')
      let rest := ds.dropWhile (· ≠ ']')
      if lab.isEmpty then none
      else if rest.take 2 = [']', '('] then
        let r2 := rest.drop 2
        let url := r2.takeWhile (· ≠ ')')
        let r3 := r2.dropWhile (· ≠ ')')
        if url.isEmpty then none
        else if r3.take 1 = [')'] then some (lab, r3.drop 1)
        else none
      else none
    else none

/-- The literal image marker inserted by the converter. -/
def imageMarker : List Char := "<!-- image -->".data

/-- Matcher for `re.sub(r'<!-- image -->', '', ·)`. -/
def stepImage (s : List Char) : Option (List Char × List Char) :=
  if s.take 14 = imageMarker then some ([], s.drop 14) else none

/-- Matcher for `re.sub(r'\.{3,}', '', ·)`: a maximal run of three or more
dots is removed. -/
def stepDots : List Char → Option (List Char × List Char)
  | c1 :: c2 :: c3 :: rest =>
    if c1 = '.' ∧ c2 = '.' ∧ c3 = '.' then some ([], rest.dropWhile (· = '.'))
    else none
  | _ => none

/-- After three dots, can `.*?\d+\s*$` match the remainder?  Equivalently:
removing trailing whitespace, the remainder ends with a digit and contains
no newline before its end (`.` does not match a newline, while the trailing
`\s*` may). -/
def canMatchRest (t : List Char) : Bool :=
  let u := t.rdropWhile pyIsSpace
  (match u.getLast? with
   | some c => c.isDigit
   | none => false) && !(u.contains '\n')

/-- Matcher for `re.sub(r'\.{3,}.*?\d+\s*$', '', ·)`.  Any successful match
extends to the end of the string, so the remainder after the match is empty. -/
def stepDotsNum : List Char → Option (List Char × List Char)
  | c1 :: c2 :: c3 :: rest =>
    if c1 = '.' ∧ c2 = '.' ∧ c3 = '.' ∧ canMatchRest rest then some ([], [])
    else none
  | _ => none

/-- Matcher for run-collapsing substitutions such as `re.sub(r'\n+', '\n', ·)`
and `re.sub(r'[ \t]+', ' ', ·)`: a maximal run of `p`-characters is replaced
by the single character `rep`. -/
def stepCollapse (p : Char → Bool) (rep : Char) :
    List Char → Option (List Char × List Char)
  | c :: cs => if p c then some ([rep], cs.dropWhile p) else none
  | [] => none

/-- Newline, for `re.sub(r'\n+', '\n', ·)`. -/
def isNl (c : Char) : Bool := c = '\n'

/-- Space or tab, for `re.sub(r'[ \t]+', ' ', ·)`. -/
def isSpTab (c : Char) : Bool := c = ' ' || c = '\t'

/-- `CorpusGenerator.limpiar_texto`: markdown normalisation. -/
def limpiarTexto (texto : List Char) : List Char :=
  pyStrip (scanSub (stepCollapse isSpTab ' ') (scanSub (stepCollapse isNl '\n')
    (scanSub stepImage (scanSub stepLink (scanSub stepCode (scanSub stepItalic
      (scanSub stepBold (scanSub stepHeader texto))))))))

/-- `re.sub(r'^-\s+', '', ·)`: one anchored removal of a leading dash plus
following whitespace run. -/
def subLeadingDash : List Char → List Char
  | c :: d :: cs =>
    if c = '-' ∧ pyIsSpace d then (d :: cs).dropWhile pyIsSpace else c :: d :: cs
  | s => s

/-- `re.sub(r'[.:]?\s*\d+\s*$', '', ·)`: the leftmost match necessarily ends
the string, and removes the trailing whitespace run, the final digit run,
the whitespace run before it, and one optional `.` or `:`. -/
def subTrailingNum (s : List Char) : List Char :=
  let r1 := s.rdropWhile pyIsSpace
  match r1.getLast? with
  | some c =>
    if c.isDigit then
      let r2 := r1.rdropWhile (·.isDigit)
      let r3 := r2.rdropWhile pyIsSpace
      match r3.getLast? with
      | some d => if d = '.' || d = ':' then r3.dropLast else r3
      | none => r3
    else s
  | none => s

/-- `re.sub(r'^,\s+', '', ·)`. -/
def subLeadingComma : List Char → List Char
  | c :: d :: cs =>
    if c = ',' ∧ pyIsSpace d then (d :: cs).dropWhile pyIsSpace else c :: d :: cs
  | s => s

/-- `re.match(r'^[\-\s]+$', ·)` as applied to an already stripped cell. -/
def isDashWs (l : List Char) : Bool :=
  !l.isEmpty && l.all (fun c => c = '-' || pyIsSpace c)

/-- `re.match(r'^\d+$', ·)`. -/
def isPureDigits (l : List Char) : Bool :=
  !l.isEmpty && l.all (·.isDigit)

/-- `re.match(r'^[\s\|\-]+$', ·)`: a table divider row. -/
def isDividerRow (l : List Char) : Bool :=
  !l.isEmpty && l.all (fun c => pyIsSpace c || c = '|' || c = '-')

/-- The preprocessing pipeline at the top of `limpiar_oracion`: strip, drop a
leading list dash, drop a trailing reference number, drop dotted
index leaders. -/
def preLimpiar (s : List Char) : List Char :=
  scanSub stepDots (scanSub stepDotsNum (subTrailingNum (subLeadingDash (pyStrip s))))

/-- The per-cell body of the table branch of `limpiar_oracion`: trim; skip
empty, dash-only and pure-digit cells; remove dotted leaders; split
bullet-carrying cells into trimmed sub-fragments kept when longer than
three characters, keep other cells when longer than three characters. -/
def limpiarCelda (celda : List Char) : List (List Char) :=
  let c1 := pyStrip celda
  if c1.isEmpty || isDashWs c1 then []
  else if isPureDigits c1 then []
  else
    let c2 := pyStrip (scanSub stepDots (scanSub stepDotsNum c1))
    if c2.contains '•' then
      concatMapL
        (fun sub =>
          let s := pyStrip sub
          if !s.isEmpty ∧ 3 < s.length then [s] else [])
        (pySplit '•' c2)
    else if 3 < c2.length then [c2] else []

/-- The full `celdas_limpias` list built by the table branch of
`limpiar_oracion`. -/
def procesarCeldasLimpiar (celdas : List (List Char)) : List (List Char) :=
  concatMapL limpiarCelda celdas

/-- `CorpusGenerator.limpiar_oracion`. -/
def limpiarOracion (oracion : List Char) : List Char :=
  let o := preLimpiar oracion
  if o.contains '|' then
    if isDividerRow o then []
    else
      match procesarCeldasLimpiar (pySplit '|' o) with
      | [] => []
      | x :: _ => x
  else
    let o6 := match o with
      | c :: rest => if c = '•' then pyStrip rest else c :: rest
      | [] => []
    let o7 := subLeadingComma o6
    pyStrip (scanSub (stepCollapse pyIsSpace ' ') o7)

/-- The per-cell body of `procesar_tablas` (note: unlike `limpiar_oracion`'s
cell loop, it length-checks the cell before bullet-splitting and runs
`limpiar_oracion` on each kept fragment). -/
def tablaCelda (celda : List Char) : List (List Char) :=
  let c1 := pyStrip celda
  if c1.isEmpty || isDashWs c1 then []
  else if isPureDigits c1 then []
  else
    let c2 := pyStrip (scanSub stepDots (scanSub stepDotsNum c1))
    if c2.isEmpty || c2.length ≤ 3 then []
    else if c2.contains '•' then
      concatMapL
        (fun sub =>
          let s := limpiarOracion sub
          if !s.isEmpty ∧ 3 < s.length then [s] else [])
        (pySplit '•' c2)
    else
      let cl := limpiarOracion c2
      if !cl.isEmpty ∧ 3 < cl.length then [cl] else []

/-- `CorpusGenerator.procesar_tablas`. -/
def procesarTablas (texto : List Char) : List (List Char) :=
  concatMapL
    (fun linea =>
      if linea.contains '|' then
        if isDividerRow linea then []
        else concatMapL tablaCelda (pySplit '|' linea)
      else [])
    (pySplit '\n' texto)

/-- Sentence-splitting punctuation, `re.split(r'[.!?]+', ·)`. -/
def isSentPunct (c : Char) : Bool := c = '.' || c = '!' || c = '?'

/-- `re.search(r'[.!?;:]$', ·)` on a line. -/
def endsTerminal (l : List Char) : Bool :=
  match l.getLast? with
  | some c => c = '.' || c = '!' || c = '?' || c = ';' || c = ':'
  | none => false

/-- `re.split` on maximal runs of `p`-characters (Python keeps the empty
fragments at the ends). -/
def splitRunsGo (p : Char → Bool) (inRun : Bool) : List Char → List (List Char)
  | [] => [[]]
  | c :: cs =>
    if p c then
      if inRun then splitRunsGo p true cs
      else [] :: splitRunsGo p true cs
    else (splitRunsGo p false cs).modifyHead (c :: ·)

/-- The non-table per-line body of `segmentar_oraciones`. -/
def lineaNormal (linea0 : List Char) : List (List Char) :=
  if linea0.contains '|' then []
  else
    let linea := pyStrip linea0
    if linea.length < 3 then []
    else if linea.contains '•' then
      concatMapL
        (fun item =>
          let il := limpiarOracion item
          if !il.isEmpty ∧ 3 ≤ il.length then [il] else [])
        (pySplit '•' linea)
    else if !endsTerminal linea then
      let ll := limpiarOracion linea
      if !ll.isEmpty ∧ 3 ≤ ll.length then [ll] else []
    else
      concatMapL
        (fun sub =>
          let sl := limpiarOracion sub
          if !sl.isEmpty ∧ 3 ≤ sl.length then [sl] else [])
        (splitRunsGo isSentPunct false linea)

/-- `CorpusGenerator.segmentar_oraciones`: table-derived units first, then
line-derived units. -/
def segmentarOraciones (texto : List Char) : List (List Char) :=
  procesarTablas texto ++ concatMapL lineaNormal (pySplit '\n' texto)

/-- Prefix match of the residual image marker, case-insensitive
(`re.match(r'<!-- image -->', ·, re.IGNORECASE)`). -/
def matchImageMarker (s : List Char) : Bool :=
  (s.take 14).map pyLower = imageMarker

/-- `re.match(r'^[IVX]+\.$', ·, re.IGNORECASE)`. -/
def isRomanDot (s : List Char) : Bool :=
  match s.reverse with
  | c :: rest =>
    c = '.' && !rest.isEmpty &&
      rest.all (fun c => c = 'I' || c = 'V' || c = 'X' || c = 'i' || c = 'v' || c = 'x')
  | [] => false

/-- `re.match(r'^#{1,6}\s+$', ·)`. -/
def isEmptyHeader (s : List Char) : Bool :=
  let hs := s.takeWhile (· = '#')
  let r := s.dropWhile (· = '#')
  1 ≤ hs.length && hs.length ≤ 6 && !r.isEmpty && r.all pyIsSpace

/-- `re.match(r'^\s*X+\s*$', ·)` for a repeated character `X`
(dash, equals or asterisk rows). -/
def isCharLine (ch : Char) (s : List Char) : Bool :=
  let a := s.dropWhile pyIsSpace
  let b := a.takeWhile (· = ch)
  let r := a.dropWhile (· = ch)
  !b.isEmpty && r.all pyIsSpace

/-- `CorpusGenerator.es_ruido_tecnico`: any of the seven noise patterns
matches (via `re.match`) the stripped text. -/
def esRuidoTecnico (texto : List Char) : Bool :=
  let s := pyStrip texto
  matchImageMarker s || isPureDigits s || isRomanDot s || isEmptyHeader s ||
    isCharLine '-' s || isCharLine '=' s || isCharLine '*' s

/-- The fixed administrative vocabulary of `CorpusGenerator`. -/
def indicadoresAdministrativo : List (List Char) :=
  ["evaluación".data, "resultados".data, "estimado".data, "padre".data,
   "madre".data, "familia".data, "ministerio".data, "universidad".data,
   "departamento".data, "región".data, "provincia".data, "nivel".data,
   "grado".data, "año".data, "fecha".data, "página".data, "índice".data,
   "capítulo".data, "anexo".data, "bibliografía".data, "referencias".data,
   "tabla".data, "gráfico".data, "pregunta".data, "respuesta".data,
   "instrucción".data, "procedimiento".data]

/-- `CorpusGenerator.es_administrativo`. -/
def esAdministrativo (texto : List Char) : Bool :=
  indicadoresAdministrativo.any (fun ind => decide (ind <:+: texto.map pyLower))

/-- `CorpusGenerator.detectar_idioma`.  The external `langdetect.detect`
collaborator is an explicit parameter; raising `LangDetectException` is
modelled by `Except.error`. -/
def detectarIdioma (detect : List Char → Except Unit (List Char))
    (texto : List Char) : List Char :=
  if (pyStrip texto).length < 10 then "unknown".data
  else
    match detect texto with
    | .ok idioma => idioma
    | .error _ => "unknown".data

/-- The fixed set of other known non-target language codes. -/
def idiomasExcluidos : List (List Char) :=
  ["en".data, "fr".data, "it".data, "pt".data, "de".data]

/-- `CorpusGenerator.es_probablemente_espanol`. -/
def esProbablementeEspanol (detect : List Char → Except Unit (List Char))
    (texto : List Char) : Bool :=
  if esRuidoTecnico texto then true
  else if esAdministrativo texto then true
  else
    let idioma := detectarIdioma detect texto
    if idioma = "es".data then true
    else if idioma ∈ idiomasExcluidos then true
    else false

/-- The pure part of `CorpusGenerator.extraer_oraciones_awajun`: normalise,
segment, keep the units the classifier does not mark as Spanish. -/
def extraerOracionesAwajun (detect : List Char → Except Unit (List Char))
    (contenido : List Char) : List (List Char) :=
  (segmentarOraciones (limpiarTexto contenido)).filter
    (fun o => !esProbablementeEspanol detect o)

/-- `list(dict.fromkeys(·))` as used by `generar_corpus_monolingue`:
insertion-order deduplication with a seen set. -/
def pyDedupGo [DecidableEq α] (seen : List α) : List α → List α
  | [] => []
  | x :: xs =>
    if x ∈ seen then pyDedupGo seen xs
    else x :: pyDedupGo (x :: seen) xs

/-- First-occurrence deduplication, as the source computes it. -/
def pyDedup [DecidableEq α] (l : List α) : List α := pyDedupGo [] l

/-- Modelled from the spec: "the input sequence with duplicates removed by
exact string equality, keeping each sentence at its first occurrence" —
keep the head, delete its later duplicates, recurse. -/
def specDedup [DecidableEq α] : List α → List α
  | [] => []
  | x :: xs => x :: specDedup (xs.filter (· ≠ x))
  termination_by l => l.length
  decreasing_by
    simp only [List.length_cons]
    exact Nat.lt_succ_of_le (List.length_filter_le _ _)

/-- The consolidated-corpus computation of `generar_corpus_monolingue`:
concatenate the per-document accepted-sentence lists, then deduplicate
keeping first occurrences. -/
def corpusConsolidado (docs : List (List (List Char))) : List (List Char) :=
  pyDedup docs.flatten

/-- The document processing order of `generar_corpus_monolingue`:
`list(glob("*.md")) + list(glob("*.txt"))`, modelled over a given directory
enumeration (each `glob` pass keeps the enumeration order of the names it
matches). -/
def archivosTexto (listado : List (List Char)) : List (List Char) :=
  listado.filter (fun f => ".md".data.isSuffixOf f) ++
    listado.filter (fun f => ".txt".data.isSuffixOf f)

/-- Modelled from the spec: strict lexicographic order on filenames
("lexicographic by filename"), by character code. -/
def specLexLt : List Char → List Char → Bool
  | [], [] => false
  | [], _ :: _ => true
  | _ :: _, [] => false
  | a :: as, b :: bs =>
    if a < b then true
    else if a = b then specLexLt as bs
    else false

/-- No two adjacent characters both satisfy `p` (runs of `p`-characters have
length at most one); the shape of strings left fixed by a run-collapsing
substitution. -/
def noRunB (p : Char → Bool) : List Char → Bool
  | [] => true
  | [_] => true
  | a :: b :: t => (!(p a && p b)) && noRunB p (b :: t)

/-- Position of the first occurrence of `x` (length of the list if absent);
used to state processing-order facts without relying on library instances. -/
def posOf (x : List Char) : List (List Char) → Nat
  | [] => 0
  | y :: ys => if y = x then 0 else posOf x ys + 1

/-- Lower-case ASCII letters, used to state the markdown-construct
properties over ordinary label text. -/
def isPlainLower (c : Char) : Bool := 'a' ≤ c && c ≤ 'z'

/-- The characters that begin a markdown construct handled by
`limpiar_texto` (header, emphasis, inline code, link, image marker). -/
def caracteresEspeciales : List Char := ['#', '*', backquoteChar, '[', '<']

end Awajun

namespace Awajun

/-! ## Generic facts about the embedding machinery -/

/-- Membership in `concatMapL` unfolds to membership in one of the pieces. -/
theorem mem_concatMapL {f : α → List β} {b : β} :
    ∀ {l : List α}, b ∈ concatMapL f l ↔ ∃ a ∈ l, b ∈ f a := by
  intro l
  induction l with
  | nil => simp [concatMapL]
  | cons x xs ih => simp [concatMapL, ih]

/-- A prefix of a `dropWhile` fixed point is a `dropWhile` fixed point. -/
theorem dropWhile_eq_self_of_pfx {p : Char → Bool} {t s : List Char}
    (ht : t.dropWhile p = t) (hp : s <+: t) : s.dropWhile p = s := by
  cases s with
  | nil => rfl
  | cons a s' =>
    obtain ⟨r, hr⟩ := hp
    cases t with
    | nil => simp at hr
    | cons b t' =>
      have hab : a = b := by
        have := congrArg (fun l => l.head?) hr
        simpa using this
      subst hab
      have hpa : p a = false := by
        cases hq : p a with
        | false => rfl
        | true =>
          rw [List.dropWhile_cons_of_pos hq] at ht
          have hlen := congrArg List.length ht
          have hle := (List.dropWhile_suffix (l := t') p).sublist.length_le
          simp at hlen
          omega
      rw [List.dropWhile_cons_of_neg (by simp [hpa])]

/-- `pyStrip` is idempotent. -/
theorem pyStrip_idem (l : List Char) : pyStrip (pyStrip l) = pyStrip l := by
  unfold pyStrip
  rw [dropWhile_eq_self_of_pfx (List.dropWhile_idempotent pyIsSpace l)
    (List.rdropWhile_prefix _ _), List.rdropWhile_idempotent]

/-- Characters of `pyStrip l` are characters of `l`. -/
theorem mem_pyStrip {c : Char} {l : List Char} (h : c ∈ pyStrip l) : c ∈ l := by
  unfold pyStrip at h
  exact (List.dropWhile_suffix pyIsSpace).sublist.subset
    ((List.rdropWhile_prefix _ _).sublist.subset h)

/-- The head of a nonempty `pyStrip` output is not whitespace. -/
theorem pyStrip_head_not_space {l : List Char} {c : Char} {cs : List Char}
    (h : pyStrip l = c :: cs) : pyIsSpace c = false := by
  unfold pyStrip at h
  obtain ⟨r, hr⟩ := List.rdropWhile_prefix pyIsSpace (l := l.dropWhile pyIsSpace)
  rw [h] at hr
  have hd : (l.dropWhile pyIsSpace).head? = some c := by
    rw [← hr]; rfl
  have h2 := List.head?_dropWhile_not pyIsSpace l
  rw [hd] at h2
  exact h2

/-! ## Generic facts about the `re.sub` scanner -/

/-- Fuel irrelevance: any fuel at least the length of the string gives the
same result. -/
theorem scanGo_fuel {step : List Char → Option (List Char × List Char)}
    (hs : Shrinks step) :
    ∀ f g (s : List Char), s.length ≤ f → s.length ≤ g →
      scanGo step f s = scanGo step g s := by
  intro f
  induction f with
  | zero =>
    intro g s hf _
    have : s = [] := List.eq_nil_of_length_eq_zero (Nat.le_zero.mp hf)
    subst this
    cases g <;> rfl
  | succ f ih =>
    intro g s hf hg
    cases s with
    | nil => cases g <;> rfl
    | cons c cs =>
      cases g with
      | zero => simp at hg
      | succ g' =>
        cases hstep : step (c :: cs) with
        | none =>
          simp only [scanGo, hstep]
          simp only [List.length_cons] at hf hg
          rw [ih g' cs (by omega) (by omega)]
        | some pr =>
          obtain ⟨out, rest⟩ := pr
          have hlt := hs _ _ _ hstep
          simp only [scanGo, hstep]
          simp only [List.length_cons] at hf hg hlt
          rw [ih g' rest (by omega) (by omega)]

/-- Unfolding `scanSub` at a successful match. -/
theorem scanSub_cons_some {step : List Char → Option (List Char × List Char)}
    {c : Char} {cs out rest : List Char} (hs : Shrinks step)
    (h : step (c :: cs) = some (out, rest)) :
    scanSub step (c :: cs) = out ++ scanSub step rest := by
  show scanGo step (cs.length + 1) (c :: cs) = _
  simp only [scanGo, h]
  have hlt := hs _ _ _ h
  simp only [List.length_cons] at hlt
  rw [scanGo_fuel hs cs.length rest.length rest (by omega) le_rfl]
  rfl

/-- Unfolding `scanSub` at a failed match. -/
theorem scanSub_cons_none {step : List Char → Option (List Char × List Char)}
    {c : Char} {cs : List Char} (h : step (c :: cs) = none) :
    scanSub step (c :: cs) = c :: scanSub step cs := by
  show scanGo step (cs.length + 1) (c :: cs) = _
  simp only [scanGo, h]
  rfl

/-- A character on which `step` can never start a match. -/
def Immune (step : List Char → Option (List Char × List Char)) (c : Char) : Prop :=
  ∀ cs, step (c :: cs) = none

/-- A string of immune characters is left unchanged. -/
theorem scanSub_id_immune {step : List Char → Option (List Char × List Char)}
    {s : List Char} (h : ∀ c ∈ s, Immune step c) : scanSub step s = s := by
  induction s with
  | nil => rfl
  | cons c cs ih =>
    rw [scanSub_cons_none (h c (by simp) cs), ih (fun d hd => h d (by simp [hd]))]

/-- A prefix of immune characters passes through the scanner. -/
theorem scanSub_append_immune {step : List Char → Option (List Char × List Char)}
    {l t : List Char} (h : ∀ c ∈ l, Immune step c) :
    scanSub step (l ++ t) = l ++ scanSub step t := by
  induction l with
  | nil => rfl
  | cons c cs ih =>
    rw [List.cons_append, scanSub_cons_none (h c (by simp) _),
      ih (fun d hd => h d (by simp [hd])), List.cons_append]

/-- Every output character of the scanner is an input character or one of the
extra characters that `step` may emit. -/
theorem mem_scanGo {step : List Char → Option (List Char × List Char)}
    {Q : Char → Prop}
    (hsuf : ∀ s out rest, step s = some (out, rest) → rest <:+ s)
    (hout : ∀ s out rest, step s = some (out, rest) → ∀ c ∈ out, c ∈ s ∨ Q c) :
    ∀ f (s : List Char) c, c ∈ scanGo step f s → c ∈ s ∨ Q c := by
  intro f
  induction f with
  | zero => intro s c hc; exact Or.inl hc
  | succ f ih =>
    intro s c hc
    cases s with
    | nil => simp [scanGo] at hc
    | cons a as =>
      simp only [scanGo] at hc
      cases hstep : step (a :: as) with
      | none =>
        rw [hstep] at hc
        simp only [List.mem_cons] at hc
        rcases hc with rfl | hc
        · exact Or.inl (by simp)
        · rcases ih as c hc with h | h
          · exact Or.inl (by simp [h])
          · exact Or.inr h
      | some pr =>
        obtain ⟨out, rest⟩ := pr
        rw [hstep] at hc
        rcases List.mem_append.mp hc with h | h
        · exact hout _ _ _ hstep c h
        · rcases ih rest c h with h2 | h2
          · exact Or.inl ((hsuf _ _ _ hstep).sublist.subset h2)
          · exact Or.inr h2

/-- `scanSub` version of `mem_scanGo`. -/
theorem mem_scanSub {step : List Char → Option (List Char × List Char)}
    {Q : Char → Prop} {s : List Char} {c : Char}
    (hsuf : ∀ s out rest, step s = some (out, rest) → rest <:+ s)
    (hout : ∀ s out rest, step s = some (out, rest) → ∀ c ∈ out, c ∈ s ∨ Q c)
    (hc : c ∈ scanSub step s) : c ∈ s ∨ Q c :=
  mem_scanGo hsuf hout s.length s c hc


/-! ## C1: consolidated-corpus deduplication -/

/-- Unfolding equation for `specDedup`. -/
theorem specDedup_cons [DecidableEq α] (x : α) (xs : List α) :
    specDedup (x :: xs) = x :: specDedup (xs.filter (· ≠ x)) := by
  rw [specDedup]

/-- The seen-set dedup agrees with the spec-level "keep first occurrence"
recursion, relative to a seen set. -/
theorem pyDedupGo_eq_specDedup [DecidableEq α] :
    ∀ (l seen : List α),
      pyDedupGo seen l = specDedup (l.filter (fun y => decide (y ∉ seen))) := by
  intro l
  induction l with
  | nil => intro seen; simp [pyDedupGo, specDedup]
  | cons x xs ih =>
    intro seen
    by_cases hx : x ∈ seen
    · rw [pyDedupGo, if_pos hx, List.filter_cons, if_neg (by simp [hx]), ih]
    · have hfil : xs.filter (fun y => decide (y ∉ x :: seen)) =
          (xs.filter (fun y => decide (y ∉ seen))).filter (fun y => decide (y ≠ x)) := by
        rw [List.filter_filter]
        apply List.filter_congr
        intro a _
        by_cases hax : a = x
        · subst hax; simp
        · by_cases has : a ∈ seen <;> simp [hax, has]
      rw [pyDedupGo, if_neg hx, List.filter_cons, if_pos (by simp [hx]),
        specDedup_cons, ih (x :: seen), hfil]

/-- C1: the consolidated corpus produced by `generar_corpus_monolingue` from
the concatenation of the per-document accepted-sentence lists equals that
concatenation with duplicates removed by exact equality, keeping each
sentence at its first occurrence; in particular, for accepted sequences
`["a","b"]` then `["b","c"]` the consolidated result is `["a","b","c"]`. -/
theorem C1_corpus_dedup :
    (∀ docs : List (List (List Char)),
        corpusConsolidado docs = specDedup docs.flatten) ∧
      corpusConsolidado [["a".data, "b".data], ["b".data, "c".data]] =
        ["a".data, "b".data, "c".data] := by
  constructor
  · intro docs
    show pyDedupGo [] docs.flatten = _
    rw [pyDedupGo_eq_specDedup]
    congr 1
    apply List.filter_eq_self.mpr
    intro a _
    simp
  · rfl

/-! ## C8: document processing order -/

/-- No filename has both the `.md` and the `.txt` suffix. -/
theorem not_md_and_txt {f : List Char} (hmd : ".md".data.isSuffixOf f = true)
    (htxt : ".txt".data.isSuffixOf f = true) : False := by
  rw [List.isSuffixOf_iff_suffix] at hmd htxt
  obtain ⟨p1, hp1⟩ := hmd
  obtain ⟨p2, hp2⟩ := htxt
  have hd : (".md".data : List Char).getLast? = some 'd' := by decide
  have ht : (".txt".data : List Char).getLast? = some 't' := by decide
  have h1 : f.getLast? = some 'd' := by
    rw [← hp1, List.getLast?_append, hd]; rfl
  have h2 : f.getLast? = some 't' := by
    rw [← hp2, List.getLast?_append, ht]; rfl
  rw [h1] at h2
  simp at h2

/-- `posOf` stays inside the left part of an append when the element is
there. -/
theorem posOf_append_of_mem {x : List Char} :
    ∀ {A : List (List Char)} (B : List (List Char)), x ∈ A →
      posOf x (A ++ B) = posOf x A := by
  intro A
  induction A with
  | nil => intro B h; simp at h
  | cons y ys ih =>
    intro B h
    by_cases hyx : y = x
    · simp [posOf, hyx]
    · rcases List.mem_cons.mp h with h | h
      · exact absurd h.symm hyx
      · simp [posOf, hyx, ih B h]

/-- `posOf` skips the whole left part of an append when the element is not
there. -/
theorem posOf_append_of_not_mem {x : List Char} :
    ∀ {A : List (List Char)} (B : List (List Char)), x ∉ A →
      posOf x (A ++ B) = A.length + posOf x B := by
  intro A
  induction A with
  | nil => intro B _; simp [posOf]
  | cons y ys ih =>
    intro B h
    have hyx : y ≠ x := fun hc => h (by simp [hc])
    have hx : x ∉ ys := fun hc => h (by simp [hc])
    simp [posOf, hyx, ih B hx]
    omega

/-- A present element has `posOf` below the length. -/
theorem posOf_lt_length {x : List Char} :
    ∀ {A : List (List Char)}, x ∈ A → posOf x A < A.length := by
  intro A
  induction A with
  | nil => intro h; simp at h
  | cons y ys ih =>
    intro h
    by_cases hyx : y = x
    · simp [posOf, hyx]
    · rcases List.mem_cons.mp h with h | h
      · exact absurd h.symm hyx
      · simpa [posOf, hyx] using ih h

/-- C8 (amended): the processing order of `generar_corpus_monolingue` is a
deterministic function of the directory enumeration in which every staged
`.md` file precedes every staged `.txt` file (it is not lexicographic by
filename across the two groups). -/
theorem C8_order_md_before_txt (listado : List (List Char)) (f g : List Char)
    (hf : f ∈ archivosTexto listado) (hg : g ∈ archivosTexto listado)
    (hfmd : ".md".data.isSuffixOf f = true)
    (hgtxt : ".txt".data.isSuffixOf g = true) :
    posOf f (archivosTexto listado) < posOf g (archivosTexto listado) := by
  unfold archivosTexto at hf hg ⊢
  set A := listado.filter (fun f => ".md".data.isSuffixOf f) with hA
  set B := listado.filter (fun f => ".txt".data.isSuffixOf f) with hB
  have hfA : f ∈ A := by
    rcases List.mem_append.mp hf with h | h
    · exact h
    · exact absurd (List.mem_filter.mp h).2 (fun hc => not_md_and_txt hfmd hc)
  have hgA : g ∉ A := by
    intro h
    exact not_md_and_txt (List.mem_filter.mp h).2 hgtxt
  rw [posOf_append_of_mem B hfA, posOf_append_of_not_mem B hgA]
  have h1 := posOf_lt_length hfA
  omega

/-- Witness for `C8_order_md_before_txt` at a concrete directory listing. -/
theorem C8_order_md_before_txt_witness :
    ("x.md".data : List Char) ∈ archivosTexto ["b.txt".data, "x.md".data] ∧
      ("b.txt".data : List Char) ∈ archivosTexto ["b.txt".data, "x.md".data] ∧
      ".md".data.isSuffixOf "x.md".data = true ∧
      ".txt".data.isSuffixOf "b.txt".data = true ∧
      posOf "x.md".data (archivosTexto ["b.txt".data, "x.md".data]) <
        posOf "b.txt".data (archivosTexto ["b.txt".data, "x.md".data]) :=
  ⟨by decide, by decide, by decide, by decide,
    C8_order_md_before_txt ["b.txt".data, "x.md".data] "x.md".data "b.txt".data
      (by decide) (by decide) (by decide) (by decide)⟩

/-- C8 counterexample: with the (already lexicographically sorted) directory
enumeration `["a.txt", "b.md"]`, the processing order puts `b.md` first even
though `a.txt` is lexicographically smaller, so the order is not
lexicographic by filename. -/
theorem C8_order_counterexample :
    archivosTexto ["a.txt".data, "b.md".data] = ["b.md".data, "a.txt".data] ∧
      specLexLt "a.txt".data "b.md".data = true := by
  constructor
  · rfl
  · decide

/-! ## C3 and C9: the language classifier -/

/-- `es_probablemente_espanol` as a four-way disjunction. -/
theorem esProb_eq (detect : List Char → Except Unit (List Char))
    (texto : List Char) :
    esProbablementeEspanol detect texto =
      (esRuidoTecnico texto || esAdministrativo texto ||
        decide (detectarIdioma detect texto = "es".data) ||
        decide (detectarIdioma detect texto ∈ idiomasExcluidos)) := by
  unfold esProbablementeEspanol
  by_cases hr : esRuidoTecnico texto <;> by_cases ha : esAdministrativo texto <;>
    by_cases he : detectarIdioma detect texto = "es".data <;>
    by_cases hx : detectarIdioma detect texto ∈ idiomasExcluidos <;>
    simp [hr, ha, he, hx]

/-- C3: on a sentence whose stripped length is below ten, the statistical
identifier is never consulted (the detection step yields `"unknown"` for
every identifier), and the classifier marks the sentence as contaminant
exactly when the technical-noise check or the administrative-vocabulary
check fires. -/
theorem C3_short_circuit (detect : List Char → Except Unit (List Char))
    (texto : List Char) (hshort : (pyStrip texto).length < 10) :
    detectarIdioma detect texto = "unknown".data ∧
      (esProbablementeEspanol detect texto = true ↔
        (esRuidoTecnico texto = true ∨ esAdministrativo texto = true)) := by
  have hdet : detectarIdioma detect texto = "unknown".data := by
    unfold detectarIdioma
    rw [if_pos hshort]
  refine ⟨hdet, ?_⟩
  rw [esProb_eq, hdet]
  cases hr : esRuidoTecnico texto <;> cases ha : esAdministrativo texto <;>
    simp [hr, ha] <;> decide

/-- Witness for `C3_short_circuit`: a two-character sentence, with an
identifier that would even report Spanish if it were consulted. -/
theorem C3_short_circuit_witness :
    ((pyStrip "ab".data).length < 10) ∧
      (detectarIdioma (fun _ => Except.ok "es".data) "ab".data = "unknown".data ∧
        (esProbablementeEspanol (fun _ => Except.ok "es".data) "ab".data = true ↔
          (esRuidoTecnico "ab".data = true ∨ esAdministrativo "ab".data = true))) :=
  ⟨by decide, C3_short_circuit (fun _ => Except.ok "es".data) "ab".data (by decide)⟩

/-- C9: a detection failure of the external identifier is caught and mapped
to `"unknown"`; an `"unknown"` code with neither noise nor administrative
match keeps the sentence; and the classifier fires only on noise,
administrative vocabulary, or a detected code in the fixed exclusion set
`{es, en, fr, it, pt, de}`. -/
theorem C9_classifier_contract (detect : List Char → Except Unit (List Char))
    (texto : List Char) :
    (detect texto = Except.error () → detectarIdioma detect texto = "unknown".data) ∧
      (detectarIdioma detect texto = "unknown".data → esRuidoTecnico texto = false →
        esAdministrativo texto = false → esProbablementeEspanol detect texto = false) ∧
      (esProbablementeEspanol detect texto = true →
        esRuidoTecnico texto = true ∨ esAdministrativo texto = true ∨
          detectarIdioma detect texto ∈ ("es".data :: idiomasExcluidos)) := by
  refine ⟨?_, ?_, ?_⟩
  · intro herr
    unfold detectarIdioma
    split
    · rfl
    · rw [herr]
  · intro hunk hr ha
    rw [esProb_eq, hunk, hr, ha]
    simp
    decide
  · intro h
    rw [esProb_eq] at h
    simp only [Bool.or_eq_true, decide_eq_true_eq] at h
    rcases h with ((hr | ha) | he) | hx
    · exact Or.inl hr
    · exact Or.inr (Or.inl ha)
    · exact Or.inr (Or.inr (by simp [he]))
    · exact Or.inr (Or.inr (by simp [hx]))

/-- Witness for `C9_classifier_contract`: a long non-noise sentence with a
failing identifier is kept. -/
theorem C9_classifier_contract_witness :
    ((fun (_ : List Char) => (Except.error () : Except Unit (List Char)))
        "atsa wi tikitcha maje".data = Except.error () ∧
      detectarIdioma (fun _ => Except.error ()) "atsa wi tikitcha maje".data =
        "unknown".data) ∧
      (esRuidoTecnico "atsa wi tikitcha maje".data = false ∧
        esAdministrativo "atsa wi tikitcha maje".data = false ∧
        esProbablementeEspanol (fun _ => Except.error ())
          "atsa wi tikitcha maje".data = false) := by
  have h := C9_classifier_contract (fun _ => Except.error ())
    "atsa wi tikitcha maje".data
  have h1 := h.1 rfl
  refine ⟨⟨rfl, h1⟩, ⟨by decide, by decide, h.2.1 h1 (by decide) (by decide)⟩⟩

/-! ## C2 and C10: the sentence cleaner -/

/-- Every unit kept by the cell loop of `limpiar_oracion` is stripped. -/
theorem mem_limpiarCelda_stripped {celda y : List Char}
    (h : y ∈ limpiarCelda celda) : pyStrip y = y := by
  simp only [limpiarCelda] at h
  split at h
  · simp at h
  · split at h
    · simp at h
    · split at h
      · rcases mem_concatMapL.mp h with ⟨sub, _, hy⟩
        split at hy
        · have := List.mem_singleton.mp hy
          subst this
          exact pyStrip_idem _
        · simp at hy
      · split at h
        · have := List.mem_singleton.mp h
          subst this
          exact pyStrip_idem _
        · simp at h

/-- Every element of the `celdas_limpias` list is stripped. -/
theorem mem_procesarCeldas_stripped {celdas : List (List Char)} {y : List Char}
    (h : y ∈ procesarCeldasLimpiar celdas) : pyStrip y = y := by
  rcases mem_concatMapL.mp h with ⟨celda, _, hy⟩
  exact mem_limpiarCelda_stripped hy

/-- The Cleaner always returns a stripped string: every return path of
`limpiar_oracion` ends in a `strip` or hands back a stripped cell unit. -/
theorem limpiarOracion_stripped (frag : List Char) :
    pyStrip (limpiarOracion frag) = limpiarOracion frag := by
  simp only [limpiarOracion]
  split
  · split
    · rfl
    · split
      · rfl
      · next y rest heq =>
        exact mem_procesarCeldas_stripped (by rw [heq]; simp)
  · exact pyStrip_idem _

/-- C2 (amended): the Cleaner output is always stripped — it never carries
leading or trailing whitespace (the original claim's further guarantees
about a leading `"- "`/bullet and a trailing digit run do not hold, see the
counterexample). -/
theorem C2_cleaner_stripped (frag : List Char) :
    pyStrip (limpiarOracion frag) = limpiarOracion frag :=
  limpiarOracion_stripped frag

/-- C2 counterexample: on the fragment `"- - abc 1 2"` the Cleaner returns
`"- abc 1"`, which starts with a list dash `"- "` and ends with a bare
digit, refuting those two conjuncts of the original claim. -/
theorem C2_cleaner_counterexample :
    limpiarOracion "- - abc 1 2".data = "- abc 1".data ∧
      (limpiarOracion "- - abc 1 2".data).take 2 = "- ".data ∧
      (limpiarOracion "- - abc 1 2".data).getLast? = some '1' := by
  refine ⟨?_, ?_, ?_⟩ <;> decide

/-- C10 (amended): whenever the preprocessed fragment contains a pipe and is
not a divider row, `limpiar_oracion` returns the head of the full list of
surviving units (cells trimmed; empty, dash-only and pure-digit cells
dropped; bullet-carrying cells split into trimmed sub-fragments kept when
longer than three characters; other cells kept when longer than three
characters) — or the empty string when no unit survives — discarding every
later surviving unit. -/
theorem C10_first_cell (frag : List Char)
    (hp : (preLimpiar frag).contains '|' = true)
    (hd : isDividerRow (preLimpiar frag) = false) :
    (procesarCeldasLimpiar (pySplit '|' (preLimpiar frag)) = [] ∧
        limpiarOracion frag = []) ∨
      ∃ rest, procesarCeldasLimpiar (pySplit '|' (preLimpiar frag)) =
        limpiarOracion frag :: rest := by
  cases h : procesarCeldasLimpiar (pySplit '|' (preLimpiar frag)) with
  | nil =>
    left
    refine ⟨rfl, ?_⟩
    simp only [limpiarOracion, hp, if_true, hd, Bool.false_eq_true, if_false, h]
  | cons y rest =>
    right
    refine ⟨rest, ?_⟩
    simp only [limpiarOracion, hp, if_true, hd, Bool.false_eq_true, if_false, h]

/-- Witness for `C10_first_cell` at the fragment `"| Nombre | 4 | Edad |"`. -/
theorem C10_first_cell_witness :
    ((preLimpiar "| Nombre | 4 | Edad |".data).contains '|' = true ∧
        isDividerRow (preLimpiar "| Nombre | 4 | Edad |".data) = false) ∧
      ((procesarCeldasLimpiar
            (pySplit '|' (preLimpiar "| Nombre | 4 | Edad |".data)) = [] ∧
          limpiarOracion "| Nombre | 4 | Edad |".data = []) ∨
        ∃ rest, procesarCeldasLimpiar
            (pySplit '|' (preLimpiar "| Nombre | 4 | Edad |".data)) =
          limpiarOracion "| Nombre | 4 | Edad |".data :: rest) :=
  ⟨⟨by decide, by decide⟩, C10_first_cell _ (by decide) (by decide)⟩

/-- C10 counterexample: on `"aaaa•bbbb|cccc"` the Cleaner returns `"aaaa"`,
which is not the text of any cell of the fragment (the first surviving cell
is `"aaaa•bbbb"`): the returned unit is a bullet sub-fragment of a cell,
not "one cell's text" as the original claim states. -/
theorem C10_table_counterexample :
    (pySplit '|' "aaaa•bbbb|cccc".data).map pyStrip =
        ["aaaa•bbbb".data, "cccc".data] ∧
      limpiarOracion "aaaa•bbbb|cccc".data = "aaaa".data ∧
      "aaaa".data ∉ ["aaaa•bbbb".data, "cccc".data] := by
  refine ⟨?_, ?_, ?_⟩ <;> decide

/-! ## C5: table divider lines -/

/-- `split` on an absent separator returns the whole string. -/
theorem pySplit_no_sep {sep : Char} :
    ∀ {l : List Char}, sep ∉ l → pySplit sep l = [l] := by
  intro l
  induction l with
  | nil => intro _; rfl
  | cons c cs ih =>
    intro h
    have hc : ¬(c = sep) := fun hc => h (by simp [hc])
    have hcs : sep ∉ cs := fun hm => h (by simp [hm])
    simp [pySplit, hc, ih hcs]

/-- C5 (amended): a line made only of dashes, pipes and whitespace that
contains at least one pipe yields zero candidate units from the Segmenter
(a dash-only line without a pipe does produce a unit, see the
counterexample). -/
theorem C5_divider_zero_units (s : List Char)
    (hnl : '\n' ∉ s) (hpipe : '|' ∈ s)
    (hcls : ∀ c ∈ s, c = '-' ∨ c = '|' ∨ pyIsSpace c = true) :
    segmentarOraciones s = [] := by
  have hsplit : pySplit '\n' s = [s] := pySplit_no_sep hnl
  have hcontains : s.contains '|' = true := List.elem_eq_true_of_mem hpipe
  have hne : ¬(s = []) := fun hc => by subst hc; simp at hpipe
  have hdiv : isDividerRow s = true := by
    unfold isDividerRow
    rw [Bool.and_eq_true]
    constructor
    · simpa using hne
    · rw [List.all_eq_true]
      intro c hc
      rcases hcls c hc with h | h | h <;> simp [h]
  unfold segmentarOraciones procesarTablas
  rw [hsplit]
  simp [concatMapL, hcontains, hdiv, lineaNormal]
  intro hcon
  exact absurd hpipe hcon

/-- Witness for `C5_divider_zero_units` at the divider line `"|-- --|"`. -/
theorem C5_divider_zero_units_witness :
    ('\n' ∉ ("|-- --|".data : List Char) ∧ '|' ∈ ("|-- --|".data : List Char) ∧
        (∀ c ∈ ("|-- --|".data : List Char),
          c = '-' ∨ c = '|' ∨ pyIsSpace c = true)) ∧
      segmentarOraciones "|-- --|".data = [] :=
  ⟨⟨by decide, by decide, by decide⟩,
    C5_divider_zero_units "|-- --|".data (by decide) (by decide) (by decide)⟩

/-- C5 counterexample: the line `"---"` consists only of dashes (no pipe)
and the Segmenter emits it as one unit, so the claim read over all
dash/pipe/whitespace lines fails. -/
theorem C5_divider_counterexample :
    (∀ c ∈ ("---".data : List Char), c = '-' ∨ c = '|' ∨ pyIsSpace c = true) ∧
      segmentarOraciones "---".data = ["---".data] := by
  constructor
  · decide
  · decide

/-! ## C6: accepted-sentence invariants -/

/-- Units kept by the table pass are Cleaner outputs longer than three
characters. -/
theorem mem_tablaCelda {celda y : List Char} (h : y ∈ tablaCelda celda) :
    3 < y.length ∧ pyStrip y = y := by
  simp only [tablaCelda] at h
  split at h
  · simp at h
  · split at h
    · simp at h
    · split at h
      · simp at h
      · split at h
        · rcases mem_concatMapL.mp h with ⟨sub, _, hy⟩
          split at hy
          · next hcond =>
            have := List.mem_singleton.mp hy
            subst this
            exact ⟨hcond.2, limpiarOracion_stripped _⟩
          · simp at hy
        · split at h
          · next hcond =>
            rw [List.mem_singleton.mp h]
            exact ⟨hcond.2, limpiarOracion_stripped _⟩
          · rw [List.mem_nil_iff] at h
            exact absurd h (fun hc => hc)

/-- Units kept by the non-table line pass are Cleaner outputs of length at
least three. -/
theorem mem_lineaNormal {linea y : List Char} (h : y ∈ lineaNormal linea) :
    3 ≤ y.length ∧ pyStrip y = y := by
  simp only [lineaNormal] at h
  split at h
  · simp at h
  · split at h
    · simp at h
    · split at h
      · rcases mem_concatMapL.mp h with ⟨item, _, hy⟩
        split at hy
        · next hcond =>
          have := List.mem_singleton.mp hy
          subst this
          exact ⟨hcond.2, limpiarOracion_stripped _⟩
        · simp at hy
      · split at h
        · split at h
          · next hcond =>
            rw [List.mem_singleton.mp h]
            exact ⟨hcond.2, limpiarOracion_stripped _⟩
          · rw [List.mem_nil_iff] at h
            exact absurd h (fun hc => hc)
        · rcases mem_concatMapL.mp h with ⟨sub, _, hy⟩
          split at hy
          · next hcond =>
            have := List.mem_singleton.mp hy
            subst this
            exact ⟨hcond.2, limpiarOracion_stripped _⟩
          · simp at hy

/-- Every unit emitted by the Segmenter has length at least three and is
stripped. -/
theorem mem_segmentar {t y : List Char} (h : y ∈ segmentarOraciones t) :
    3 ≤ y.length ∧ pyStrip y = y := by
  rcases List.mem_append.mp h with h | h
  · rcases mem_concatMapL.mp h with ⟨linea, _, hy⟩
    split at hy
    · split at hy
      · simp at hy
      · rcases mem_concatMapL.mp hy with ⟨celda, _, hy2⟩
        have := mem_tablaCelda hy2
        exact ⟨by omega, this.2⟩
    · simp at hy
  · rcases mem_concatMapL.mp h with ⟨linea, _, hy⟩
    exact mem_lineaNormal hy

/-- C6 (amended): every accepted sentence produced by
`extraer_oraciones_awajun` is non-empty, has length at least three, and is
neither pure whitespace nor pure numerals (the original claim's "never pure
punctuation" part fails, see the counterexample). -/
theorem C6_accepted_invariants (detect : List Char → Except Unit (List Char))
    (contenido : List Char) (s : List Char)
    (h : s ∈ extraerOracionesAwajun detect contenido) :
    s ≠ [] ∧ 3 ≤ s.length ∧ s.all pyIsSpace = false ∧
      s.all (·.isDigit) = false := by
  rw [extraerOracionesAwajun, List.mem_filter] at h
  obtain ⟨hseg, hkeep⟩ := h
  obtain ⟨hlen, hstrip⟩ := mem_segmentar hseg
  have hne : s ≠ [] := by
    intro hc
    subst hc
    simp at hlen
  refine ⟨hne, hlen, ?_, ?_⟩
  · cases s with
    | nil => exact absurd rfl hne
    | cons c cs =>
      have hc := pyStrip_head_not_space hstrip
      simp [hc]
  · have hprob : esProbablementeEspanol detect s = false := by simpa using hkeep
    rw [esProb_eq] at hprob
    simp only [Bool.or_eq_false_iff] at hprob
    obtain ⟨⟨⟨hruido, _⟩, _⟩, _⟩ := hprob
    unfold esRuidoTecnico at hruido
    simp only [Bool.or_eq_false_iff] at hruido
    obtain ⟨⟨⟨⟨⟨⟨_, hpd⟩, _⟩, _⟩, _⟩, _⟩, _⟩ := hruido
    rw [hstrip] at hpd
    unfold isPureDigits at hpd
    rw [Bool.and_eq_false_iff] at hpd
    rcases hpd with hpd | hpd
    · have hempty : s.isEmpty = true := by
        revert hpd
        cases s.isEmpty <;> simp
      exact absurd (List.isEmpty_iff.mp hempty) hne
    · exact hpd

/-- Witness for `C6_accepted_invariants` at a concrete accepted sentence. -/
theorem C6_accepted_invariants_witness :
    ("Atsa wi tikitcha".data ∈
        extraerOracionesAwajun (fun _ => Except.error ()) "Atsa wi tikitcha".data) ∧
      ("Atsa wi tikitcha".data ≠ ([] : List Char) ∧
        3 ≤ "Atsa wi tikitcha".data.length ∧
        "Atsa wi tikitcha".data.all pyIsSpace = false ∧
        "Atsa wi tikitcha".data.all (·.isDigit) = false) :=
  ⟨by decide,
    C6_accepted_invariants (fun _ => Except.error ()) "Atsa wi tikitcha".data
      "Atsa wi tikitcha".data (by decide)⟩

/-- C6 counterexample: the document `";;;"` yields the accepted sentence
`";;;"`, which is pure punctuation (neither alphanumeric nor whitespace),
contradicting the "never pure punctuation" part of the claim. -/
theorem C6_accepted_counterexample :
    extraerOracionesAwajun (fun _ => Except.error ()) ";;;".data = [";;;".data] ∧
      (";;;".data : List Char).all (fun c => !c.isAlphanum && !pyIsSpace c) = true := by
  constructor
  · decide
  · decide

/-! ## C4 and C7: per-matcher facts -/

/-- `dropWhile` is the identity when no character satisfies the predicate. -/
theorem dropWhile_all_not {p : Char → Bool} {l : List Char}
    (h : ∀ c ∈ l, p c = false) : l.dropWhile p = l := by
  cases l with
  | nil => rfl
  | cons c cs => exact List.dropWhile_cons_of_neg (by simp [h c (by simp)])

/-- `pyStrip` is the identity when no character is whitespace. -/
theorem pyStrip_all_not {l : List Char}
    (h : ∀ c ∈ l, pyIsSpace c = false) : pyStrip l = l := by
  unfold pyStrip
  rw [dropWhile_all_not h]
  rw [List.rdropWhile_eq_self_iff]
  intro hl
  simp [h _ (List.getLast_mem hl)]

theorem immune_stepHeader {c : Char} (hc : c ≠ '#') : Immune stepHeader c := by
  intro cs
  simp [stepHeader, hc]

theorem immune_stepBold {c : Char} (hc : c ≠ '*') : Immune stepBold c := by
  intro cs
  cases cs with
  | nil => rfl
  | cons d ds =>
    show stepBold (c :: d :: ds) = none
    simp only [stepBold]
    rw [if_neg (fun h => hc h.1)]

theorem immune_stepItalic {c : Char} (hc : c ≠ '*') : Immune stepItalic c := by
  intro cs
  simp [stepItalic, hc]

theorem immune_stepCode {c : Char} (hc : c ≠ backquoteChar) : Immune stepCode c := by
  intro cs
  simp [stepCode, hc]

theorem immune_stepLink {c : Char} (hc : c ≠ '[') : Immune stepLink c := by
  intro cs
  simp [stepLink, hc]

theorem immune_stepImage {c : Char} (hc : c ≠ '<') : Immune stepImage c := by
  intro cs
  have hmk : imageMarker = '<' :: "!-- image -->".data := by decide
  simp only [stepImage, List.take_succ_cons, hmk]
  rw [if_neg]
  intro heq
  exact hc (List.cons.injEq .. ▸ heq).1

theorem immune_stepCollapse {p : Char → Bool} {rep c : Char}
    (hc : p c = false) : Immune (stepCollapse p rep) c := by
  intro cs
  simp [stepCollapse, hc]

theorem shrinks_stepHeader : Shrinks stepHeader := by
  intro s out rest h
  rcases s with _ | ⟨c, cs⟩
  · simp [stepHeader] at h
  · simp only [stepHeader] at h
    split at h
    · split at h
      · simp only [Option.some.injEq, Prod.mk.injEq] at h
        have h1 : rest.length ≤ (List.dropWhile (fun x => decide (x = '#')) cs).length := by
          rw [← h.2]
          exact (List.dropWhile_suffix pyIsSpace).sublist.length_le
        have h2 := (List.dropWhile_suffix (fun x => decide (x = '#')) (l := cs)).sublist.length_le
        simp
        omega
      · simp at h
    · simp at h

theorem shrinks_stepBold : Shrinks stepBold := by
  intro s out rest h
  rcases s with _ | ⟨c1, _ | ⟨c2, ds⟩⟩
  · simp [stepBold] at h
  · simp [stepBold] at h
  · simp only [stepBold] at h
    split at h
    · split at h
      · simp at h
      · split at h
        · simp only [Option.some.injEq, Prod.mk.injEq] at h
          have h2 := (List.dropWhile_suffix (fun x => decide (x ≠ '*')) (l := ds)).sublist.length_le
          have h3 : rest.length =
              (List.dropWhile (fun x => decide (x ≠ '*')) ds).length - 2 := by
            rw [← h.2, List.length_drop]
          simp
          omega
        · simp at h
    · simp at h

theorem shrinks_stepItalic : Shrinks stepItalic := by
  intro s out rest h
  rcases s with _ | ⟨c, ds⟩
  · simp [stepItalic] at h
  · simp only [stepItalic] at h
    split at h
    · split at h
      · simp at h
      · split at h
        · simp only [Option.some.injEq, Prod.mk.injEq] at h
          have h2 := (List.dropWhile_suffix (fun x => decide (x ≠ '*')) (l := ds)).sublist.length_le
          have h3 : rest.length =
              (List.dropWhile (fun x => decide (x ≠ '*')) ds).length - 1 := by
            rw [← h.2, List.length_drop]
          simp
          omega
        · simp at h
    · simp at h

theorem shrinks_stepCode : Shrinks stepCode := by
  intro s out rest h
  rcases s with _ | ⟨c, ds⟩
  · simp [stepCode] at h
  · simp only [stepCode] at h
    split at h
    · split at h
      · simp at h
      · split at h
        · simp only [Option.some.injEq, Prod.mk.injEq] at h
          have h2 := (List.dropWhile_suffix
            (fun x => decide (x ≠ backquoteChar)) (l := ds)).sublist.length_le
          have h3 : rest.length =
              (List.dropWhile (fun x => decide (x ≠ backquoteChar)) ds).length - 1 := by
            rw [← h.2, List.length_drop]
          simp
          omega
        · simp at h
    · simp at h

theorem shrinks_stepLink : Shrinks stepLink := by
  intro s out rest h
  rcases s with _ | ⟨c, ds⟩
  · simp [stepLink] at h
  · simp only [stepLink] at h
    split at h
    · split at h
      · simp at h
      · split at h
        · split at h
          · simp at h
          · split at h
            · simp only [Option.some.injEq, Prod.mk.injEq] at h
              have h2 := (List.dropWhile_suffix
                (fun x => decide (x ≠ ']')) (l := ds)).sublist.length_le
              have h4 := (List.dropWhile_suffix (fun x => decide (x ≠ ')'))
                (l := (List.dropWhile (fun x => decide (x ≠ ']')) ds).drop 2)).sublist.length_le
              have h3 : rest.length =
                  (List.dropWhile (fun x => decide (x ≠ ')'))
                    ((List.dropWhile (fun x => decide (x ≠ ']')) ds).drop 2)).length - 1 := by
                rw [← h.2, List.length_drop]
              have h5 := List.length_drop 2 (List.dropWhile (fun x => decide (x ≠ ']')) ds)
              simp
              omega
            · simp at h
        · simp at h
    · simp at h

/-! ## C4: run-collapse fixed points -/

theorem noRunB_tail {p : Char → Bool} {a : Char} {l : List Char}
    (h : noRunB p (a :: l) = true) : noRunB p l = true := by
  cases l with
  | nil => rfl
  | cons b t =>
    simp only [noRunB, Bool.and_eq_true] at h
    exact h.2

theorem noRunB_head {p : Char → Bool} {a b : Char} {l : List Char}
    (h : noRunB p (a :: b :: l) = true) : ¬(p a = true ∧ p b = true) := by
  simp only [noRunB, Bool.and_eq_true] at h
  intro hc
  rw [hc.1, hc.2] at h
  simp at h

theorem noRunB_cons_of {p : Char → Bool} {a : Char} {l : List Char}
    (hl : noRunB p l = true)
    (hhead : ∀ b t, l = b :: t → ¬(p a = true ∧ p b = true)) :
    noRunB p (a :: l) = true := by
  cases l with
  | nil => rfl
  | cons b t =>
    simp only [noRunB, Bool.and_eq_true]
    refine ⟨?_, hl⟩
    have := hhead b t rfl
    cases hpa : p a <;> cases hpb : p b <;> simp_all

theorem noRunB_append_right {p : Char → Bool} :
    ∀ {r l : List Char}, noRunB p (r ++ l) = true → noRunB p l = true := by
  intro r
  induction r with
  | nil => intro l h; exact h
  | cons a r' ih =>
    intro l h
    exact ih (noRunB_tail (by simpa using h))

theorem noRunB_append_left {p : Char → Bool} :
    ∀ {l r : List Char}, noRunB p (l ++ r) = true → noRunB p l = true := by
  intro l
  induction l with
  | nil => intro r _; rfl
  | cons a l' ih =>
    intro r h
    cases l' with
    | nil => rfl
    | cons b t =>
      apply noRunB_cons_of (ih (noRunB_tail (by simpa using h)))
      intro b' t' hbt hc
      rw [List.cons.injEq] at hbt
      rw [← hbt.1] at hc
      exact noRunB_head (by simpa using h) hc

theorem noRunB_suffix {p : Char → Bool} {l l' : List Char}
    (h : noRunB p l = true) (hs : l' <:+ l) : noRunB p l' = true := by
  obtain ⟨r, hr⟩ := hs
  exact noRunB_append_right (hr ▸ h)

theorem noRunB_prefix {p : Char → Bool} {l l' : List Char}
    (h : noRunB p l = true) (hs : l' <+: l) : noRunB p l' = true := by
  obtain ⟨r, hr⟩ := hs
  exact noRunB_append_left (hr ▸ h)

theorem noRunB_pyStrip {p : Char → Bool} {l : List Char}
    (h : noRunB p l = true) : noRunB p (pyStrip l) = true :=
  noRunB_prefix (noRunB_suffix h (List.dropWhile_suffix pyIsSpace))
    (List.rdropWhile_prefix _ _)

/-- One step of the collapse scanner. -/
theorem collapse_scanGo_cons {p : Char → Bool} {rep : Char} {f : Nat}
    {d : Char} {ds : List Char} :
    scanGo (stepCollapse p rep) (f + 1) (d :: ds) =
      if p d then rep :: scanGo (stepCollapse p rep) f (ds.dropWhile p)
      else d :: scanGo (stepCollapse p rep) f ds := by
  by_cases hp : p d
  · simp [scanGo, stepCollapse, hp]
  · simp [scanGo, stepCollapse, hp]

/-- The head of a collapse output over a head-stable string keeps the head. -/
theorem collapse_head_not {p : Char → Bool} {rep : Char} :
    ∀ f (s : List Char), s.dropWhile p = s →
      ∀ b t, scanGo (stepCollapse p rep) f s = b :: t → p b = false := by
  intro f s hs b t hbt
  cases s with
  | nil =>
    cases f <;> simp [scanGo] at hbt
  | cons e es =>
    have hpe : p e = false := by
      cases hq : p e with
      | false => rfl
      | true =>
        rw [List.dropWhile_cons_of_pos hq] at hs
        have := congrArg List.length hs
        have hle := (List.dropWhile_suffix (l := es) p).sublist.length_le
        simp at this
        omega
    cases f with
    | zero =>
      simp only [scanGo] at hbt
      rw [List.cons.injEq] at hbt
      rw [← hbt.1]
      exact hpe
    | succ f' =>
      rw [collapse_scanGo_cons, if_neg (by simp [hpe])] at hbt
      rw [List.cons.injEq] at hbt
      rw [← hbt.1]
      exact hpe

/-- The head of a collapse output is the replacement or the input head. -/
theorem collapse_head_shape {p : Char → Bool} {rep : Char} :
    ∀ f (e : Char) (es : List Char) b t,
      scanGo (stepCollapse p rep) f (e :: es) = b :: t → b = rep ∨ b = e := by
  intro f e es b t hbt
  cases f with
  | zero =>
    simp only [scanGo] at hbt
    rw [List.cons.injEq] at hbt
    exact Or.inr hbt.1.symm
  | succ f' =>
    rw [collapse_scanGo_cons] at hbt
    split at hbt
    · rw [List.cons.injEq] at hbt
      exact Or.inl hbt.1.symm
    · rw [List.cons.injEq] at hbt
      exact Or.inr hbt.1.symm

/-- A string with no `p`-runs and only `rep` as `p`-character is a fixed
point of the collapse scanner. -/
theorem collapse_fix {p : Char → Bool} {rep : Char} :
    ∀ f (s : List Char), s.length ≤ f → noRunB p s = true →
      (∀ c ∈ s, p c = true → c = rep) →
      scanGo (stepCollapse p rep) f s = s := by
  intro f
  induction f with
  | zero =>
    intro s hf _ _
    have : s = [] := List.eq_nil_of_length_eq_zero (Nat.le_zero.mp hf)
    subst this
    rfl
  | succ f ih =>
    intro s hf hrun hrep
    cases s with
    | nil => rfl
    | cons d ds =>
      simp only [List.length_cons] at hf
      rw [collapse_scanGo_cons]
      by_cases hp : p d
      · rw [if_pos hp]
        have hds : ds.dropWhile p = ds := by
          cases ds with
          | nil => rfl
          | cons b t =>
            refine List.dropWhile_cons_of_neg ?_
            intro hb
            exact noRunB_head hrun ⟨hp, by simpa using hb⟩
        rw [hds, ih ds (by omega) (noRunB_tail hrun)
          (fun c hc hpc => hrep c (by simp [hc]) hpc), hrep d (by simp) hp]
      · rw [if_neg hp,
          ih ds (by omega) (noRunB_tail hrun)
            (fun c hc hpc => hrep c (by simp [hc]) hpc)]

/-- The collapse scanner's output has no `p`-runs and its `p`-characters all
equal the replacement. -/
theorem collapse_out {p : Char → Bool} {rep : Char} (hrep : p rep = true) :
    ∀ f (s : List Char), s.length ≤ f →
      noRunB p (scanGo (stepCollapse p rep) f s) = true ∧
        (∀ c ∈ scanGo (stepCollapse p rep) f s, p c = true → c = rep) := by
  intro f
  induction f with
  | zero =>
    intro s hf
    have : s = [] := List.eq_nil_of_length_eq_zero (Nat.le_zero.mp hf)
    subst this
    exact ⟨rfl, by simp [scanGo]⟩
  | succ f ih =>
    intro s hf
    cases s with
    | nil => exact ⟨rfl, by simp [scanGo]⟩
    | cons d ds =>
      simp only [List.length_cons] at hf
      rw [collapse_scanGo_cons]
      by_cases hp : p d
      · rw [if_pos hp]
        have hlen : (ds.dropWhile p).length ≤ f := by
          have := (List.dropWhile_suffix (l := ds) p).sublist.length_le
          omega
        obtain ⟨hrunT, hrepT⟩ := ih _ hlen
        constructor
        · apply noRunB_cons_of hrunT
          intro b t hbt hc
          have hb : p b = false :=
            collapse_head_not f (ds.dropWhile p) (List.dropWhile_idempotent p ds) b t hbt
          rw [hb] at hc
          exact absurd hc.2 (by simp)
        · intro c hc hpc
          rcases List.mem_cons.mp hc with rfl | hc
          · rfl
          · exact hrepT c hc hpc
      · rw [if_neg hp]
        obtain ⟨hrunT, hrepT⟩ := ih ds (by omega)
        constructor
        · apply noRunB_cons_of hrunT
          intro b t hbt hc
          exact absurd hc.1 (by simp [hp])
        · intro c hc hpc
          rcases List.mem_cons.mp hc with rfl | hc
          · exact absurd hpc (by simp [hp])
          · exact hrepT c hc hpc

/-- Collapsing by `p` preserves the absence of `q`-runs when the replacement
character is not a `q`-character. -/
theorem collapse_preserve {p q : Char → Bool} {rep : Char} (hq : q rep = false) :
    ∀ f (s : List Char), s.length ≤ f → noRunB q s = true →
      noRunB q (scanGo (stepCollapse p rep) f s) = true := by
  intro f
  induction f with
  | zero =>
    intro s hf _
    have : s = [] := List.eq_nil_of_length_eq_zero (Nat.le_zero.mp hf)
    subst this
    rfl
  | succ f ih =>
    intro s hf hrun
    cases s with
    | nil => rfl
    | cons d ds =>
      simp only [List.length_cons] at hf
      rw [collapse_scanGo_cons]
      by_cases hp : p d
      · rw [if_pos hp]
        have hlen : (ds.dropWhile p).length ≤ f := by
          have := (List.dropWhile_suffix (l := ds) p).sublist.length_le
          omega
        apply noRunB_cons_of
          (ih _ hlen (noRunB_suffix (noRunB_tail hrun) (List.dropWhile_suffix p)))
        intro b t hbt hc
        rw [hq] at hc
        exact absurd hc.1 (by simp)
      · rw [if_neg hp]
        apply noRunB_cons_of (ih ds (by omega) (noRunB_tail hrun))
        intro b t hbt hc
        cases ds with
        | nil =>
          cases f <;> simp [scanGo] at hbt
        | cons e es =>
          rcases collapse_head_shape f e es b t hbt with rfl | rfl
          · rw [hq] at hc
            exact absurd hc.2 (by simp)
          · exact noRunB_head hrun hc

theorem stepCollapse_suffix {p : Char → Bool} {rep : Char} :
    ∀ (s out rest : List Char),
      stepCollapse p rep s = some (out, rest) → rest <:+ s := by
  intro s out rest h
  cases s with
  | nil => simp [stepCollapse] at h
  | cons c cs =>
    simp only [stepCollapse] at h
    split at h
    · simp only [Option.some.injEq, Prod.mk.injEq] at h
      rw [← h.2]
      exact (List.dropWhile_suffix p).trans (List.suffix_cons c cs)
    · simp at h

theorem stepCollapse_out {p : Char → Bool} {rep : Char} :
    ∀ (s out rest : List Char), stepCollapse p rep s = some (out, rest) →
      ∀ c ∈ out, c ∈ s ∨ c = rep := by
  intro s out rest h c hc
  cases s with
  | nil => simp [stepCollapse] at h
  | cons d cs =>
    simp only [stepCollapse] at h
    split at h
    · simp only [Option.some.injEq, Prod.mk.injEq] at h
      rw [← h.1] at hc
      exact Or.inr (List.mem_singleton.mp hc)
    · simp at h

theorem no_specials_facts {c : Char} (h : c ∉ caracteresEspeciales) :
    c ≠ '#' ∧ c ≠ '*' ∧ c ≠ backquoteChar ∧ c ≠ '[' ∧ c ≠ '<' := by
  simp only [caracteresEspeciales, List.mem_cons, not_or] at h
  exact ⟨h.1, h.2.1, h.2.2.1, h.2.2.2.1, h.2.2.2.2.1⟩

/-- On input free of markdown special characters, the normaliser reduces to
its whitespace pipeline (newline collapse, space collapse, strip). -/
theorem limpiarTexto_no_specials {x : List Char}
    (hx : ∀ c ∈ x, c ∉ caracteresEspeciales) :
    limpiarTexto x =
      pyStrip (scanSub (stepCollapse isSpTab ' ')
        (scanSub (stepCollapse isNl '\n') x)) := by
  unfold limpiarTexto
  rw [scanSub_id_immune (fun c hc => immune_stepHeader (no_specials_facts (hx c hc)).1),
    scanSub_id_immune (fun c hc => immune_stepBold (no_specials_facts (hx c hc)).2.1),
    scanSub_id_immune (fun c hc => immune_stepItalic (no_specials_facts (hx c hc)).2.1),
    scanSub_id_immune (fun c hc => immune_stepCode (no_specials_facts (hx c hc)).2.2.1),
    scanSub_id_immune (fun c hc => immune_stepLink (no_specials_facts (hx c hc)).2.2.2.1),
    scanSub_id_immune (fun c hc => immune_stepImage (no_specials_facts (hx c hc)).2.2.2.2)]

/-- C4 (amended): the Markup Normalizer is idempotent on every input that
contains none of the markdown special characters `#`, `*`, backquote, `[`,
`<` (in general it is not idempotent, see the counterexample). -/
theorem C4_normalizer_idempotent_restricted (x : List Char)
    (hx : ∀ c ∈ x, c ∉ caracteresEspeciales) :
    limpiarTexto (limpiarTexto x) = limpiarTexto x := by
  have hnl : isNl '\n' = true := by decide
  have hsp : isSpTab ' ' = true := by decide
  have hmem7 : ∀ c ∈ scanSub (stepCollapse isNl '\n') x, c ∈ x ∨ c = '\n' :=
    fun c hc => mem_scanSub stepCollapse_suffix stepCollapse_out hc
  have hmem8 : ∀ c ∈ scanSub (stepCollapse isSpTab ' ')
      (scanSub (stepCollapse isNl '\n') x), c ∈ x ∨ c = '\n' ∨ c = ' ' := by
    intro c hc
    rcases mem_scanSub stepCollapse_suffix stepCollapse_out hc with hc2 | rfl
    · rcases hmem7 c hc2 with h | h
      · exact Or.inl h
      · exact Or.inr (Or.inl h)
    · exact Or.inr (Or.inr rfl)
  have hymem : ∀ c ∈ pyStrip (scanSub (stepCollapse isSpTab ' ')
      (scanSub (stepCollapse isNl '\n') x)), c ∈ x ∨ c = '\n' ∨ c = ' ' :=
    fun c hc => hmem8 c (mem_pyStrip hc)
  have hyspec : ∀ c ∈ pyStrip (scanSub (stepCollapse isSpTab ' ')
      (scanSub (stepCollapse isNl '\n') x)), c ∉ caracteresEspeciales := by
    intro c hc
    rcases hymem c hc with h | h | h
    · exact hx c h
    · subst h; decide
    · subst h; decide
  rw [limpiarTexto_no_specials hx, limpiarTexto_no_specials hyspec]
  have hrun7x : noRunB isNl (scanSub (stepCollapse isNl '\n') x) = true :=
    (collapse_out hnl _ x le_rfl).1
  have hrun7y : noRunB isNl (pyStrip (scanSub (stepCollapse isSpTab ' ')
      (scanSub (stepCollapse isNl '\n') x))) = true :=
    noRunB_pyStrip (collapse_preserve (by decide) _ _ le_rfl hrun7x)
  have hfix7 : scanSub (stepCollapse isNl '\n') (pyStrip (scanSub (stepCollapse isSpTab ' ')
      (scanSub (stepCollapse isNl '\n') x))) =
      pyStrip (scanSub (stepCollapse isSpTab ' ') (scanSub (stepCollapse isNl '\n') x)) :=
    collapse_fix _ _ le_rfl hrun7y
      (fun c _ hc => by simpa [isNl] using hc)
  rw [hfix7]
  have hrun8 : noRunB isSpTab (pyStrip (scanSub (stepCollapse isSpTab ' ')
      (scanSub (stepCollapse isNl '\n') x))) = true :=
    noRunB_pyStrip (collapse_out hsp _ _ le_rfl).1
  have hrep8 : ∀ c ∈ pyStrip (scanSub (stepCollapse isSpTab ' ')
      (scanSub (stepCollapse isNl '\n') x)), isSpTab c = true → c = ' ' :=
    fun c hc hpc => (collapse_out hsp _ _ le_rfl).2 c (mem_pyStrip hc) hpc
  have hfix8 : scanSub (stepCollapse isSpTab ' ') (pyStrip (scanSub (stepCollapse isSpTab ' ')
      (scanSub (stepCollapse isNl '\n') x))) =
      pyStrip (scanSub (stepCollapse isSpTab ' ') (scanSub (stepCollapse isNl '\n') x)) :=
    collapse_fix _ _ le_rfl hrun8 hrep8
  rw [hfix8, pyStrip_idem]

/-- Witness for `C4_normalizer_idempotent_restricted` on an input with
whitespace runs but no special characters. -/
theorem C4_normalizer_idempotent_restricted_witness :
    (∀ c ∈ ("a  b\n\nc".data : List Char), c ∉ caracteresEspeciales) ∧
      limpiarTexto (limpiarTexto "a  b\n\nc".data) = limpiarTexto "a  b\n\nc".data :=
  ⟨by decide, C4_normalizer_idempotent_restricted "a  b\n\nc".data (by decide)⟩

/-- C4 counterexample: the inline-code pass exposes a fresh heading marker,
so a second normalisation pass removes more: the Normalizer is not
idempotent. -/
theorem C4_normalizer_counterexample :
    limpiarTexto (limpiarTexto ('`' :: '#' :: '`' :: ' ' :: 'a' :: [])) ≠
      limpiarTexto ('`' :: '#' :: '`' :: ' ' :: 'a' :: []) := by
  decide

/-! ## C7: markdown constructs -/

/-- A plain lower-case letter differs from any non-plain character. -/
theorem plain_ne_of {c d : Char} (hp : isPlainLower c = true)
    (hd : isPlainLower d = false) : c ≠ d := by
  intro h
  rw [h] at hp
  rw [hp] at hd
  simp at hd

theorem plain_not_space {c : Char} (hp : isPlainLower c = true) :
    pyIsSpace c = false := by
  have h1 := plain_ne_of hp (show isPlainLower ' ' = false by decide)
  have h2 := plain_ne_of hp (show isPlainLower '\t' = false by decide)
  have h3 := plain_ne_of hp (show isPlainLower '\n' = false by decide)
  have h4 := plain_ne_of hp (show isPlainLower '\r' = false by decide)
  have h5 := plain_ne_of hp (show isPlainLower '\x0b' = false by decide)
  have h6 := plain_ne_of hp (show isPlainLower '\x0c' = false by decide)
  simp [pyIsSpace, h1, h2, h3, h4, h5, h6]

theorem plain_not_nl {c : Char} (hp : isPlainLower c = true) : isNl c = false := by
  simp [isNl, plain_ne_of hp (show isPlainLower '\n' = false by decide)]

theorem plain_not_sptab {c : Char} (hp : isPlainLower c = true) :
    isSpTab c = false := by
  simp [isSpTab, plain_ne_of hp (show isPlainLower ' ' = false by decide),
    plain_ne_of hp (show isPlainLower '\t' = false by decide)]

/-- The whitespace tail of the normaliser is the identity on a plain string. -/
theorem limpiarTexto_tail_plain {l : List Char}
    (hl : ∀ c ∈ l, isPlainLower c = true) :
    pyStrip (scanSub (stepCollapse isSpTab ' ')
      (scanSub (stepCollapse isNl '\n')
        (scanSub stepImage l))) = l := by
  rw [scanSub_id_immune
      (fun c hc => immune_stepImage (plain_ne_of (hl c hc) (by decide))),
    scanSub_id_immune
      (fun c hc => immune_stepCollapse (plain_not_nl (hl c hc))),
    scanSub_id_immune
      (fun c hc => immune_stepCollapse (plain_not_sptab (hl c hc))),
    pyStrip_all_not (fun c hc => plain_not_space (hl c hc))]

/-- The Normalizer is the identity on a plain lower-case string. -/
theorem limpiarTexto_plain {l : List Char}
    (hl : ∀ c ∈ l, isPlainLower c = true) : limpiarTexto l = l := by
  unfold limpiarTexto
  rw [scanSub_id_immune
      (fun c hc => immune_stepHeader (plain_ne_of (hl c hc) (by decide))),
    scanSub_id_immune
      (fun c hc => immune_stepBold (plain_ne_of (hl c hc) (by decide))),
    scanSub_id_immune
      (fun c hc => immune_stepItalic (plain_ne_of (hl c hc) (by decide))),
    scanSub_id_immune
      (fun c hc => immune_stepCode (plain_ne_of (hl c hc) (by decide))),
    scanSub_id_immune
      (fun c hc => immune_stepLink (plain_ne_of (hl c hc) (by decide)))]
  exact limpiarTexto_tail_plain hl

/-- Heading construct: `# label` normalises to `label`. -/
theorem limpiarTexto_header {l : List Char}
    (hl : ∀ c ∈ l, isPlainLower c = true) :
    limpiarTexto ('#' :: ' ' :: l) = l := by
  have hh : headSat pyIsSpace (' ' :: l) = true := by
    simp only [headSat, List.take_succ_cons, List.take_zero, List.any_cons,
      List.any_nil, Bool.or_false]
    decide
  have hstep : stepHeader ('#' :: ' ' :: l) = some ([], l) := by
    have ht : List.takeWhile (fun x => decide (x = '#')) (' ' :: l) = [] :=
      List.takeWhile_cons_of_neg (by decide)
    have hd : List.dropWhile (fun x => decide (x = '#')) (' ' :: l) = ' ' :: l :=
      List.dropWhile_cons_of_neg (by decide)
    have hw : List.dropWhile pyIsSpace (' ' :: l) = l := by
      rw [List.dropWhile_cons_of_pos (by decide)]
      exact dropWhile_all_not (fun c hc => plain_not_space (hl c hc))
    simp only [stepHeader, if_pos rfl, ht, hd, hw]
    simp [hh]
  have h1 : scanSub stepHeader ('#' :: ' ' :: l) = l := by
    rw [scanSub_cons_some shrinks_stepHeader hstep, List.nil_append,
      scanSub_id_immune (fun c hc =>
        immune_stepHeader (plain_ne_of (hl c hc)
          (show isPlainLower '#' = false by decide)))]
  unfold limpiarTexto
  rw [h1,
    scanSub_id_immune (fun c hc =>
      immune_stepBold (plain_ne_of (hl c hc)
        (show isPlainLower '*' = false by decide))),
    scanSub_id_immune (fun c hc =>
      immune_stepItalic (plain_ne_of (hl c hc)
        (show isPlainLower '*' = false by decide))),
    scanSub_id_immune (fun c hc =>
      immune_stepCode (plain_ne_of (hl c hc)
        (show isPlainLower backquoteChar = false by decide))),
    scanSub_id_immune (fun c hc =>
      immune_stepLink (plain_ne_of (hl c hc)
        (show isPlainLower '[' = false by decide)))]
  exact limpiarTexto_tail_plain hl

/-- Bold construct: `**label**` normalises to `label`. -/
theorem limpiarTexto_bold {l : List Char}
    (hl : ∀ c ∈ l, isPlainLower c = true) (hln : l ≠ []) :
    limpiarTexto ('*' :: '*' :: (l ++ '*' :: '*' :: [])) = l := by
  have hmem : ∀ c ∈ '*' :: '*' :: (l ++ '*' :: '*' :: []), c = '*' ∨ c ∈ l := by
    intro c hc
    rcases List.mem_cons.mp hc with rfl | hc
    · exact Or.inl rfl
    rcases List.mem_cons.mp hc with rfl | hc
    · exact Or.inl rfl
    rcases List.mem_append.mp hc with hc | hc
    · exact Or.inr hc
    · rcases List.mem_cons.mp hc with rfl | hc
      · exact Or.inl rfl
      · exact Or.inl (List.mem_singleton.mp hc)
  have hpos : ∀ a ∈ l, (fun x => decide (x ≠ '*')) a := by
    intro a ha
    simp [plain_ne_of (hl a ha) (show isPlainLower '*' = false by decide)]
  have hstep : stepBold ('*' :: '*' :: (l ++ '*' :: '*' :: [])) = some (l, []) := by
    have ht : List.takeWhile (fun x => decide (x ≠ '*')) (l ++ '*' :: '*' :: []) = l := by
      rw [List.takeWhile_append_of_pos hpos, List.takeWhile_cons_of_neg (by decide),
        List.append_nil]
    have hd : List.dropWhile (fun x => decide (x ≠ '*')) (l ++ '*' :: '*' :: []) =
        '*' :: '*' :: [] := by
      rw [List.dropWhile_append_of_pos hpos, List.dropWhile_cons_of_neg (by decide)]
    simp only [stepBold, ht, hd]
    rw [if_neg (show ¬(l.isEmpty = true) by simp [List.isEmpty_iff, hln])]
    simp
  have h1 : scanSub stepHeader ('*' :: '*' :: (l ++ '*' :: '*' :: [])) =
      '*' :: '*' :: (l ++ '*' :: '*' :: []) := by
    apply scanSub_id_immune
    intro c hc
    rcases hmem c hc with rfl | hc
    · exact immune_stepHeader (by decide)
    · exact immune_stepHeader (plain_ne_of (hl c hc)
        (show isPlainLower '#' = false by decide))
  have h2 : scanSub stepBold ('*' :: '*' :: (l ++ '*' :: '*' :: [])) = l := by
    rw [scanSub_cons_some shrinks_stepBold hstep,
      show scanSub stepBold ([] : List Char) = [] from rfl, List.append_nil]
  unfold limpiarTexto
  rw [h1, h2,
    scanSub_id_immune (fun c hc =>
      immune_stepItalic (plain_ne_of (hl c hc)
        (show isPlainLower '*' = false by decide))),
    scanSub_id_immune (fun c hc =>
      immune_stepCode (plain_ne_of (hl c hc)
        (show isPlainLower backquoteChar = false by decide))),
    scanSub_id_immune (fun c hc =>
      immune_stepLink (plain_ne_of (hl c hc)
        (show isPlainLower '[' = false by decide)))]
  exact limpiarTexto_tail_plain hl

/-- Italic construct: `*label*` normalises to `label`. -/
theorem limpiarTexto_italic {l : List Char}
    (hl : ∀ c ∈ l, isPlainLower c = true) (hln : l ≠ []) :
    limpiarTexto ('*' :: (l ++ '*' :: [])) = l := by
  have hpos : ∀ a ∈ l, (fun x => decide (x ≠ '*')) a := by
    intro a ha
    simp [plain_ne_of (hl a ha) (show isPlainLower '*' = false by decide)]
  have hmem : ∀ c ∈ '*' :: (l ++ '*' :: []), c = '*' ∨ c ∈ l := by
    intro c hc
    rcases List.mem_cons.mp hc with rfl | hc
    · exact Or.inl rfl
    rcases List.mem_append.mp hc with hc | hc
    · exact Or.inr hc
    · exact Or.inl (List.mem_singleton.mp hc)
  have h1 : scanSub stepHeader ('*' :: (l ++ '*' :: [])) = '*' :: (l ++ '*' :: []) := by
    apply scanSub_id_immune
    intro c hc
    rcases hmem c hc with rfl | hc
    · exact immune_stepHeader (by decide)
    · exact immune_stepHeader (plain_ne_of (hl c hc)
        (show isPlainLower '#' = false by decide))
  have h2 : scanSub stepBold ('*' :: (l ++ '*' :: [])) = '*' :: (l ++ '*' :: []) := by
    obtain ⟨a, l', rfl⟩ : ∃ a l', l = a :: l' := by
      cases l with
      | nil => exact absurd rfl hln
      | cons a l' => exact ⟨a, l', rfl⟩
    have hb0 : stepBold ('*' :: ((a :: l') ++ '*' :: [])) = none := by
      simp only [List.cons_append, stepBold]
      exact if_neg (fun h => plain_ne_of (hl a (by simp))
        (show isPlainLower '*' = false by decide) h.2)
    rw [scanSub_cons_none hb0, scanSub_append_immune (fun c hc =>
      immune_stepBold (plain_ne_of (hl c hc)
        (show isPlainLower '*' = false by decide))),
      scanSub_cons_none (show stepBold ('*' :: []) = none from rfl),
      show scanSub stepBold ([] : List Char) = [] from rfl]
  have hstep : stepItalic ('*' :: (l ++ '*' :: [])) = some (l, []) := by
    have ht : List.takeWhile (fun x => decide (x ≠ '*')) (l ++ '*' :: []) = l := by
      rw [List.takeWhile_append_of_pos hpos, List.takeWhile_cons_of_neg (by decide),
        List.append_nil]
    have hd : List.dropWhile (fun x => decide (x ≠ '*')) (l ++ '*' :: []) =
        '*' :: [] := by
      rw [List.dropWhile_append_of_pos hpos, List.dropWhile_cons_of_neg (by decide)]
    simp only [stepItalic, ht, hd]
    rw [if_neg (show ¬(l.isEmpty = true) by simp [List.isEmpty_iff, hln])]
    simp
  have h3 : scanSub stepItalic ('*' :: (l ++ '*' :: [])) = l := by
    rw [scanSub_cons_some shrinks_stepItalic hstep,
      show scanSub stepItalic ([] : List Char) = [] from rfl, List.append_nil]
  unfold limpiarTexto
  rw [h1, h2, h3,
    scanSub_id_immune (fun c hc =>
      immune_stepCode (plain_ne_of (hl c hc)
        (show isPlainLower backquoteChar = false by decide))),
    scanSub_id_immune (fun c hc =>
      immune_stepLink (plain_ne_of (hl c hc)
        (show isPlainLower '[' = false by decide)))]
  exact limpiarTexto_tail_plain hl

/-- Inline-code construct: a backquoted label normalises to the label. -/
theorem limpiarTexto_code {l : List Char}
    (hl : ∀ c ∈ l, isPlainLower c = true) (hln : l ≠ []) :
    limpiarTexto (backquoteChar :: (l ++ backquoteChar :: [])) = l := by
  have hq : isPlainLower backquoteChar = false := by decide
  have hpos : ∀ a ∈ l, (fun x => decide (x ≠ backquoteChar)) a := by
    intro a ha
    simp [plain_ne_of (hl a ha) hq]
  have hmem : ∀ c ∈ backquoteChar :: (l ++ backquoteChar :: []),
      c = backquoteChar ∨ c ∈ l := by
    intro c hc
    rcases List.mem_cons.mp hc with rfl | hc
    · exact Or.inl rfl
    rcases List.mem_append.mp hc with hc | hc
    · exact Or.inr hc
    · exact Or.inl (List.mem_singleton.mp hc)
  have h1 : scanSub stepHeader (backquoteChar :: (l ++ backquoteChar :: [])) =
      backquoteChar :: (l ++ backquoteChar :: []) := by
    apply scanSub_id_immune
    intro c hc
    rcases hmem c hc with rfl | hc
    · exact immune_stepHeader (by decide)
    · exact immune_stepHeader (plain_ne_of (hl c hc)
        (show isPlainLower '#' = false by decide))
  have h2 : scanSub stepBold (backquoteChar :: (l ++ backquoteChar :: [])) =
      backquoteChar :: (l ++ backquoteChar :: []) := by
    apply scanSub_id_immune
    intro c hc
    rcases hmem c hc with rfl | hc
    · exact immune_stepBold (by decide)
    · exact immune_stepBold (plain_ne_of (hl c hc)
        (show isPlainLower '*' = false by decide))
  have h3 : scanSub stepItalic (backquoteChar :: (l ++ backquoteChar :: [])) =
      backquoteChar :: (l ++ backquoteChar :: []) := by
    apply scanSub_id_immune
    intro c hc
    rcases hmem c hc with rfl | hc
    · exact immune_stepItalic (by decide)
    · exact immune_stepItalic (plain_ne_of (hl c hc)
        (show isPlainLower '*' = false by decide))
  have hstep : stepCode (backquoteChar :: (l ++ backquoteChar :: [])) =
      some (l, []) := by
    have ht : List.takeWhile (fun x => decide (x ≠ backquoteChar))
        (l ++ backquoteChar :: []) = l := by
      rw [List.takeWhile_append_of_pos hpos, List.takeWhile_cons_of_neg (by simp),
        List.append_nil]
    have hd : List.dropWhile (fun x => decide (x ≠ backquoteChar))
        (l ++ backquoteChar :: []) = backquoteChar :: [] := by
      rw [List.dropWhile_append_of_pos hpos, List.dropWhile_cons_of_neg (by simp)]
    simp only [stepCode, ht, hd]
    rw [if_neg (show ¬(l.isEmpty = true) by simp [List.isEmpty_iff, hln])]
    simp
  have h4 : scanSub stepCode (backquoteChar :: (l ++ backquoteChar :: [])) = l := by
    rw [scanSub_cons_some shrinks_stepCode hstep,
      show scanSub stepCode ([] : List Char) = [] from rfl, List.append_nil]
  unfold limpiarTexto
  rw [h1, h2, h3, h4,
    scanSub_id_immune (fun c hc =>
      immune_stepLink (plain_ne_of (hl c hc)
        (show isPlainLower '[' = false by decide)))]
  exact limpiarTexto_tail_plain hl

/-- The link pass replaces a whole `[label](url)` group by the label. -/
theorem scanSub_stepLink_construct {l u : List Char}
    (hl : ∀ c ∈ l, isPlainLower c = true) (hu : ∀ c ∈ u, isPlainLower c = true)
    (hln : l ≠ []) (hun : u ≠ []) :
    scanSub stepLink ('[' :: (l ++ ']' :: '(' :: (u ++ ')' :: []))) = l := by
  have hposl : ∀ a ∈ l, (fun x => decide (x ≠ ']')) a := by
    intro a ha
    simp [plain_ne_of (hl a ha) (show isPlainLower ']' = false by decide)]
  have hposu : ∀ a ∈ u, (fun x => decide (x ≠ ')')) a := by
    intro a ha
    simp [plain_ne_of (hu a ha) (show isPlainLower ')' = false by decide)]
  have htake : List.takeWhile (fun x => decide (x ≠ ']'))
      (l ++ ']' :: '(' :: (u ++ ')' :: [])) = l := by
    rw [List.takeWhile_append_of_pos hposl, List.takeWhile_cons_of_neg (by decide),
      List.append_nil]
  have hdrop : List.dropWhile (fun x => decide (x ≠ ']'))
      (l ++ ']' :: '(' :: (u ++ ')' :: [])) = ']' :: '(' :: (u ++ ')' :: []) := by
    rw [List.dropWhile_append_of_pos hposl, List.dropWhile_cons_of_neg (by decide)]
  have htake2 : List.takeWhile (fun x => decide (x ≠ ')')) (u ++ ')' :: []) = u := by
    rw [List.takeWhile_append_of_pos hposu, List.takeWhile_cons_of_neg (by decide),
      List.append_nil]
  have hdrop2 : List.dropWhile (fun x => decide (x ≠ ')')) (u ++ ')' :: []) =
      ')' :: [] := by
    rw [List.dropWhile_append_of_pos hposu, List.dropWhile_cons_of_neg (by decide)]
  have hstep : stepLink ('[' :: (l ++ ']' :: '(' :: (u ++ ')' :: []))) =
      some (l, []) := by
    simp only [stepLink, htake, hdrop, List.take_succ_cons,
      List.take_zero, List.drop_succ_cons, List.drop_zero, htake2, hdrop2]
    rw [if_neg (show ¬(l.isEmpty = true) by simp [List.isEmpty_iff, hln])]
    simp [List.isEmpty_iff, hun]
  rw [scanSub_cons_some shrinks_stepLink hstep,
    show scanSub stepLink ([] : List Char) = [] from rfl, List.append_nil]

/-- Characters of the link construct string. -/
theorem mem_link_chars {l u : List Char} {c : Char}
    (hc : c ∈ '[' :: (l ++ ']' :: '(' :: (u ++ ')' :: []))) :
    c = '[' ∨ c = ']' ∨ c = '(' ∨ c = ')' ∨ c ∈ l ∨ c ∈ u := by
  simp only [List.mem_cons, List.mem_append, List.mem_singleton] at hc
  tauto

/-- Link construct: `[label](url)` normalises to `label`. -/
theorem limpiarTexto_link {l u : List Char}
    (hl : ∀ c ∈ l, isPlainLower c = true) (hu : ∀ c ∈ u, isPlainLower c = true)
    (hln : l ≠ []) (hun : u ≠ []) :
    limpiarTexto ('[' :: (l ++ ']' :: '(' :: (u ++ ')' :: []))) = l := by
  have hne : ∀ c ∈ '[' :: (l ++ ']' :: '(' :: (u ++ ')' :: [])),
      c ≠ '#' ∧ c ≠ '*' ∧ c ≠ backquoteChar := by
    intro c hc
    rcases mem_link_chars hc with rfl | rfl | rfl | rfl | hc | hc
    · exact ⟨by decide, by decide, by decide⟩
    · exact ⟨by decide, by decide, by decide⟩
    · exact ⟨by decide, by decide, by decide⟩
    · exact ⟨by decide, by decide, by decide⟩
    · exact ⟨plain_ne_of (hl c hc) (show isPlainLower '#' = false by decide),
        plain_ne_of (hl c hc) (show isPlainLower '*' = false by decide),
        plain_ne_of (hl c hc) (show isPlainLower backquoteChar = false by decide)⟩
    · exact ⟨plain_ne_of (hu c hc) (show isPlainLower '#' = false by decide),
        plain_ne_of (hu c hc) (show isPlainLower '*' = false by decide),
        plain_ne_of (hu c hc) (show isPlainLower backquoteChar = false by decide)⟩
  unfold limpiarTexto
  rw [scanSub_id_immune (fun c hc => immune_stepHeader (hne c hc).1),
    scanSub_id_immune (fun c hc => immune_stepBold (hne c hc).2.1),
    scanSub_id_immune (fun c hc => immune_stepItalic (hne c hc).2.1),
    scanSub_id_immune (fun c hc => immune_stepCode (hne c hc).2.2),
    scanSub_stepLink_construct hl hu hln hun]
  exact limpiarTexto_tail_plain hl

/-- Image syntax `![label](url)` keeps a leading `!` before the label: the
link rule fires, no image-syntax rule exists. -/
theorem limpiarTexto_image_syntax {l u : List Char}
    (hl : ∀ c ∈ l, isPlainLower c = true) (hu : ∀ c ∈ u, isPlainLower c = true)
    (hln : l ≠ []) (hun : u ≠ []) :
    limpiarTexto ('!' :: '[' :: (l ++ ']' :: '(' :: (u ++ ')' :: []))) = '!' :: l := by
  have hne : ∀ c ∈ '[' :: (l ++ ']' :: '(' :: (u ++ ')' :: [])),
      c ≠ '#' ∧ c ≠ '*' ∧ c ≠ backquoteChar := by
    intro c hc
    rcases mem_link_chars hc with rfl | rfl | rfl | rfl | hc | hc
    · exact ⟨by decide, by decide, by decide⟩
    · exact ⟨by decide, by decide, by decide⟩
    · exact ⟨by decide, by decide, by decide⟩
    · exact ⟨by decide, by decide, by decide⟩
    · exact ⟨plain_ne_of (hl c hc) (show isPlainLower '#' = false by decide),
        plain_ne_of (hl c hc) (show isPlainLower '*' = false by decide),
        plain_ne_of (hl c hc) (show isPlainLower backquoteChar = false by decide)⟩
    · exact ⟨plain_ne_of (hu c hc) (show isPlainLower '#' = false by decide),
        plain_ne_of (hu c hc) (show isPlainLower '*' = false by decide),
        plain_ne_of (hu c hc) (show isPlainLower backquoteChar = false by decide)⟩
  have hne2 : ∀ c ∈ '!' :: '[' :: (l ++ ']' :: '(' :: (u ++ ')' :: [])),
      c ≠ '#' ∧ c ≠ '*' ∧ c ≠ backquoteChar := by
    intro c hc
    rcases List.mem_cons.mp hc with rfl | hc
    · exact ⟨by decide, by decide, by decide⟩
    · exact hne c hc
  have hbang : ∀ c ∈ ('!' :: l), isNl c = false ∧ isSpTab c = false ∧
      pyIsSpace c = false ∧ c ≠ '<' := by
    intro c hc
    rcases List.mem_cons.mp hc with rfl | hc
    · exact ⟨by decide, by decide, by decide, by decide⟩
    · exact ⟨plain_not_nl (hl c hc), plain_not_sptab (hl c hc),
        plain_not_space (hl c hc),
        plain_ne_of (hl c hc) (show isPlainLower '<' = false by decide)⟩
  have h5 : scanSub stepLink ('!' :: '[' :: (l ++ ']' :: '(' :: (u ++ ')' :: []))) =
      '!' :: l := by
    rw [scanSub_cons_none (immune_stepLink (show '!' ≠ '[' by decide) _),
      scanSub_stepLink_construct hl hu hln hun]
  unfold limpiarTexto
  rw [scanSub_id_immune (fun c hc => immune_stepHeader (hne2 c hc).1),
    scanSub_id_immune (fun c hc => immune_stepBold (hne2 c hc).2.1),
    scanSub_id_immune (fun c hc => immune_stepItalic (hne2 c hc).2.1),
    scanSub_id_immune (fun c hc => immune_stepCode (hne2 c hc).2.2),
    h5,
    scanSub_id_immune (fun c hc => immune_stepImage (hbang c hc).2.2.2),
    scanSub_id_immune (fun c hc => immune_stepCollapse (hbang c hc).1),
    scanSub_id_immune (fun c hc => immune_stepCollapse (hbang c hc).2.1),
    pyStrip_all_not (fun c hc => (hbang c hc).2.2.1)]

/-- C7 (amended): the Normalizer removes image placeholders entirely and
replaces heading, bold, italic, inline-code and link constructs by their
inner label text; image syntax `![label](url)` is handled by the link rule
and becomes `!` followed by the label — it is not removed entirely. -/
theorem C7_markdown_replacement (l u : List Char)
    (hl : ∀ c ∈ l, isPlainLower c = true) (hu : ∀ c ∈ u, isPlainLower c = true)
    (hln : l ≠ []) (hun : u ≠ []) :
    limpiarTexto ('#' :: ' ' :: l) = l ∧
      limpiarTexto ('*' :: '*' :: (l ++ '*' :: '*' :: [])) = l ∧
      limpiarTexto ('*' :: (l ++ '*' :: [])) = l ∧
      limpiarTexto (backquoteChar :: (l ++ backquoteChar :: [])) = l ∧
      limpiarTexto ('[' :: (l ++ ']' :: '(' :: (u ++ ')' :: []))) = l ∧
      limpiarTexto imageMarker = [] ∧
      limpiarTexto ('!' :: '[' :: (l ++ ']' :: '(' :: (u ++ ')' :: []))) = '!' :: l :=
  ⟨limpiarTexto_header hl, limpiarTexto_bold hl hln, limpiarTexto_italic hl hln,
    limpiarTexto_code hl hln, limpiarTexto_link hl hu hln hun, by decide,
    limpiarTexto_image_syntax hl hu hln hun⟩

/-- Witness for `C7_markdown_replacement` at the label `"abc"` and target
`"u"`. -/
theorem C7_markdown_replacement_witness :
    ((∀ c ∈ ("abc".data : List Char), isPlainLower c = true) ∧
        (∀ c ∈ ("u".data : List Char), isPlainLower c = true) ∧
        ("abc".data : List Char) ≠ [] ∧ ("u".data : List Char) ≠ []) ∧
      (limpiarTexto ('#' :: ' ' :: "abc".data) = "abc".data ∧
        limpiarTexto ('*' :: '*' :: ("abc".data ++ '*' :: '*' :: [])) = "abc".data ∧
        limpiarTexto ('*' :: ("abc".data ++ '*' :: [])) = "abc".data ∧
        limpiarTexto (backquoteChar :: ("abc".data ++ backquoteChar :: [])) = "abc".data ∧
        limpiarTexto ('[' :: ("abc".data ++ ']' :: '(' :: ("u".data ++ ')' :: []))) =
          "abc".data ∧
        limpiarTexto imageMarker = [] ∧
        limpiarTexto ('!' :: '[' :: ("abc".data ++ ']' :: '(' :: ("u".data ++ ')' :: []))) =
          '!' :: "abc".data) :=
  ⟨⟨by decide, by decide, by decide, by decide⟩,
    C7_markdown_replacement "abc".data "u".data (by decide) (by decide)
      (by decide) (by decide)⟩

/-- C7 counterexample: image syntax is not removed entirely — `![a](b)`
normalises to `"!a"`, not to the empty string. -/
theorem C7_markdown_counterexample :
    limpiarTexto "![a](b)".data = "!a".data ∧ limpiarTexto "![a](b)".data ≠ [] := by
  constructor
  · decide
  · decide

end Awajun
